import Mathlib

/-!
Verification of the Spinneret web framework core (src/server.js) against its
specification. The JavaScript source is shallowly embedded: the trie router
(#setRoute/#getRoute), the WebSocket frame codec (#encodeWsMessage /
#decodeWsMessage), the middleware pipeline (#midCall), the file-serving setup
(files) and the WebSocket event wiring (#upgradeToWs) become executable Lean
functions over lists and naturals; Node buffer reads that can throw become
Except values.
-/

/-- The runtime errors the embedded code can raise: RangeError models Node's
out-of-range buffer reads and writes, ReferenceError models a strict-mode read
of an undeclared identifier. -/
inductive JsError where
  | rangeError
  | referenceError
deriving DecidableEq, Repr

/-- Lookup in an association list, modelling both JS `Map.get` and reading a
plain-object property: first (only) binding for the key. -/
def alGet {α : Type} : List (String × α) → String → Option α
  | [], _ => none
  | (k', v) :: rest, k => if k' = k then some v else alGet rest k

/-- Update in an association list, modelling both JS `Map.set` and assigning a
plain-object property: overwrite an existing binding in place, otherwise
append a new binding at the end (JS objects and Maps keep insertion order). -/
def alSet {α : Type} : List (String × α) → String → α → List (String × α)
  | [], k, v => [(k, v)]
  | (k', v') :: rest, k, v =>
    if k' = k then (k', v) :: rest else (k', v') :: alSet rest k v

theorem alGet_alSet_self {α : Type} (l : List (String × α)) (k : String) (v : α) :
    alGet (alSet l k v) k = some v := by
  induction l with
  | nil => simp [alGet, alSet]
  | cons p rest ih =>
    obtain ⟨k', v'⟩ := p
    by_cases h : k' = k
    · simp [alGet, alSet, h]
    · simp [alGet, alSet, h, ih]

theorem alGet_alSet_ne {α : Type} (l : List (String × α)) (k k' : String) (v : α)
    (h : k' ≠ k) : alGet (alSet l k v) k' = alGet l k' := by
  induction l with
  | nil =>
    simp only [alSet, alGet]
    rw [if_neg (Ne.symm h)]
  | cons p rest ih =>
    obtain ⟨k₀, v₀⟩ := p
    by_cases h₀ : k₀ = k
    · subst h₀
      simp only [alSet, if_pos rfl, alGet]
      rw [if_neg (Ne.symm h), if_neg (Ne.symm h)]
    · by_cases h₁ : k₀ = k'
      · subst h₁
        simp only [alSet]
        rw [if_neg h₀]
        simp [alGet]
      · simp [alGet, alSet, h₀, h₁, ih]

theorem alSet_append_of_none {α : Type} (l : List (String × α)) (k : String) (v : α)
    (h : alGet l k = none) : alSet l k v = l ++ [(k, v)] := by
  induction l with
  | nil => simp [alSet]
  | cons p rest ih =>
    obtain ⟨k₀, v₀⟩ := p
    by_cases h₀ : k₀ = k
    · simp [alGet, h₀] at h
    · simp [alGet, h₀] at h
      simp [alSet, h₀, ih h]

/-!
## Trie router (src/server.js, #setRoute lines 477-515, #getRoute lines 518-556)

URLs are split on `/` with empty parts skipped (`url.split('/')` plus the
`if (!urlPart) continue` in both functions). The default variable-delimiter
pattern is the regex `^{(.+?)}$`: a segment is a variable exactly when it
starts with an opening brace, ends with a closing brace, and the text between
the first and the last brace is non-empty and free of the four characters the
regex `.` refuses (newline, carriage return, U+2028, U+2029). Handlers are
identified by numbers (JS compares them by function identity).
-/

/-- One step of `url.split('/')`: chars accumulate into the current piece,
each slash ends a piece. -/
def splitSlashAux : List Char → List Char → List String
  | [], cur => [String.mk cur.reverse]
  | c :: rest, cur =>
    if c = '/' then String.mk cur.reverse :: splitSlashAux rest []
    else splitSlashAux rest (c :: cur)

/-- JS `s.split('/')`. -/
def jsSplitSlash (s : String) : List String := splitSlashAux s.toList []

/-- The non-empty segments of a URL, in order: `url.split('/')` with empty
parts skipped, as both #setRoute and #getRoute do. -/
def segsOf (url : String) : List String :=
  (jsSplitSlash url).filter (fun s => s ≠ "")

/-- A character the JS regex `.` (no `s` flag) matches. -/
def regexDotChar (c : Char) : Bool :=
  c ≠ '\n' && c ≠ '\r' && c ≠ Char.ofNat 0x2028 && c ≠ Char.ofNat 0x2029

/-- `urlPart.match(/^{(.+?)}$/)`: the inner text when the whole segment is a
brace-wrapped non-empty variable name, else `none`. The lazy group together
with the anchors captures everything between the first and the last brace. -/
def matchVar (seg : String) : Option String :=
  match seg.toList with
  | '{' :: rest =>
    if rest.getLast? = some '}' && rest.dropLast ≠ [] && rest.dropLast.all regexDotChar
    then some (String.mk rest.dropLast)
    else none
  | _ => none

/-- The key under which #setRoute stores a segment's child: the variable name
for a variable segment, the literal text otherwise. -/
def segKey (seg : String) : String :=
  match matchVar seg with
  | some v => v
  | none => seg

/-- A route-tree node: `map.var` (the optional variable name), the
method-to-handler properties, and the child map. -/
inductive RouteNode where
  | mk (varName : Option String) (handlers : List (String × Nat))
       (children : List (String × RouteNode))

/-- The `map.var` property of a node. -/
def RouteNode.varName : RouteNode → Option String
  | .mk v _ _ => v

/-- The method-to-handler properties of a node. -/
def RouteNode.handlers : RouteNode → List (String × Nat)
  | .mk _ h _ => h

/-- The child map of a node. -/
def RouteNode.children : RouteNode → List (String × RouteNode)
  | .mk _ _ c => c

/-- A fresh `new Map()` node. -/
def emptyNode : RouteNode := .mk none [] []

/-- The dynamic-URL branch of #setRoute, one recursive call per segment: a
variable segment overwrites `map.var` and is stored under the variable name, a
missing child is created, and the terminal node gets `map[method] = fn`. -/
def setRouteSegs (method : String) (handler : Nat) : RouteNode → List String → RouteNode
  | node, [] => .mk node.varName (alSet node.handlers method handler) node.children
  | node, seg :: rest =>
    match matchVar seg with
    | some v =>
      .mk (some v) node.handlers
        (alSet node.children v
          (setRouteSegs method handler ((alGet node.children v).getD emptyNode) rest))
    | none =>
      .mk node.varName node.handlers
        (alSet node.children seg
          (setRouteSegs method handler ((alGet node.children seg).getD emptyNode) rest))

/-- The dynamic-URL branch of #getRoute: at a node carrying `map.var` the
literal segment is recorded in `req.vars` under that name and the walk keys on
the name; otherwise the walk keys on the literal segment. A missing child is
`null`; at the end the handler is `map[req.method]`. -/
def getRouteSegs (method : String) :
    RouteNode → List (String × String) → List String → Option (Nat × List (String × String))
  | node, vars, [] =>
    match alGet node.handlers method with
    | some h => some (h, vars)
    | none => none
  | node, vars, seg :: rest =>
    match node.varName with
    | some v =>
      match alGet node.children v with
      | some child => getRouteSegs method child (alSet vars v seg) rest
      | none => none
    | none =>
      match alGet node.children seg with
      | some child => getRouteSegs method child vars rest
      | none => none

/-- A registration triple passed to `api(method, url, fn)`. -/
structure Route where
  method : String
  url : String
  handler : Nat
deriving DecidableEq, Repr

/-- A registration after URL splitting (what the per-segment loop consumes). -/
structure RegS where
  method : String
  segs : List String
  handler : Nat
deriving DecidableEq, Repr

/-- Splitting a registration's URL. -/
def Route.toRegS (r : Route) : RegS := ⟨r.method, segsOf r.url, r.handler⟩

/-- One #setRoute call (dynamic mode) on the route tree. -/
def insertReg (n : RouteNode) (r : RegS) : RouteNode :=
  setRouteSegs r.method r.handler n r.segs

/-- Route tree after a sequence of #setRoute calls starting from `n`. -/
def buildFrom (n : RouteNode) (rs : List RegS) : RouteNode := rs.foldl insertReg n

/-- Route tree built by registering `regs` in order (dynamic mode, fresh server). -/
def buildTrie (regs : List Route) : RouteNode :=
  buildFrom emptyNode (regs.map Route.toRegS)

/-- #getRoute in dynamic mode on a request with the given method and URL:
walk the split segments from the root with `req.vars` initially absent. -/
def getRoute (root : RouteNode) (method url : String) :
    Option (Nat × List (String × String)) :=
  getRouteSegs method root [] (segsOf url)

/-!
Static mode (`#urlVar` not configured): #setRoute keys a flat map by the whole
URL string and #getRoute looks the request URL up in it.
-/

/-- The static-URL branch of #setRoute: ensure a flat entry keyed by the whole
URL string exists, then set `map[method] = fn` on it. -/
def setRouteStatic (routes : List (String × List (String × Nat)))
    (method url : String) (handler : Nat) : List (String × List (String × Nat)) :=
  match alGet routes url with
  | none => alSet routes url (alSet [] method handler)
  | some mp => alSet routes url (alSet mp method handler)

/-- Flat route table built by registering `regs` in order (static mode). -/
def buildStatic (regs : List Route) : List (String × List (String × Nat)) :=
  regs.foldl (fun rt r => setRouteStatic rt r.method r.url r.handler) []

/-- The static-URL branch of #getRoute: look the whole request URL up, then
the method. -/
def getRouteStatic (routes : List (String × List (String × Nat)))
    (method url : String) : Option Nat :=
  match alGet routes url with
  | none => none
  | some mp => alGet mp method

/-!
## Pattern-level vocabulary for router claims

A registered path is viewed per segment as either a literal or a named
variable, exactly as #setRoute classifies segments via the delimiter regex.
-/

/-- A path segment as the router classifies it. -/
inductive SegPat where
  | lit (s : String)
  | var (v : String)
deriving DecidableEq, Repr

/-- Classification of one raw segment. -/
def patOf (seg : String) : SegPat :=
  match matchVar seg with
  | some v => .var v
  | none => .lit seg

/-- The tree key a pattern descends by. -/
def SegPat.keyOf : SegPat → String
  | .lit s => s
  | .var v => v

/-- Pattern view of a registration's segments. -/
def patsOfS (r : RegS) : List SegPat := r.segs.map patOf

/-- Pattern view of a URL. -/
def patsOf (url : String) : List SegPat := (segsOf url).map patOf

/-- `xs` instantiates pattern `p`: same length, literal positions match
textually, variable positions match anything. -/
def instantiates : List SegPat → List String → Bool
  | [], [] => true
  | .lit s :: p, x :: xs => x = s && instantiates p xs
  | .var _ :: p, _ :: xs => instantiates p xs
  | _, _ => false

/-- The variables #getRoute is expected to extract when `xs` instantiates `p`:
each variable name bound to the literal text at its position, in path order. -/
def expVars : List SegPat → List String → List (String × String)
  | .var v :: p, x :: xs => (v, x) :: expVars p xs
  | .lit _ :: p, _ :: xs => expVars p xs
  | _, _ => []

/-- The variable names of a pattern, in order. -/
def patVarNames (p : List SegPat) : List String :=
  p.filterMap fun q => match q with | .var v => some v | .lit _ => none

/-- Two patterns at the same tree position do not mix variable and static. -/
def slotMixFree : SegPat → SegPat → Bool
  | .lit _, .var _ => false
  | .var _, .lit _ => false
  | _, _ => true

/-- Two patterns at the same tree position agree entirely: both literal, or
both the same named variable. -/
def slotCompat : SegPat → SegPat → Bool
  | .lit _, .lit _ => true
  | .var v, .var w => v = w
  | _, _ => false

/-- No variable-vs-static ambiguity between two paths: wherever their tree
positions coincide (same keys so far), the segments do not mix variable and
static. -/
def patsMixFree : List SegPat → List SegPat → Bool
  | p :: ps, q :: qs => slotMixFree p q && (p.keyOf ≠ q.keyOf || patsMixFree ps qs)
  | _, _ => true

/-- Full compatibility between two paths: wherever their tree positions
coincide, the segments agree on variable-ness and on the variable name. -/
def patsCompat : List SegPat → List SegPat → Bool
  | p :: ps, q :: qs => slotCompat p q && (p.keyOf ≠ q.keyOf || patsCompat ps qs)
  | _, _ => true

/-- The original claim's precondition over a registration list: no two
registrations differ by variable-vs-static ambiguity at the same position. -/
def mixFreeAll (rs : List RegS) : Bool :=
  rs.all fun r => rs.all fun r' => patsMixFree (patsOfS r) (patsOfS r')

/-- The amended precondition: registrations agree pairwise on variable-ness
and variable names at coinciding positions. -/
def compatAll (rs : List RegS) : Prop :=
  ∀ r ∈ rs, ∀ r' ∈ rs, patsCompat (patsOfS r) (patsOfS r') = true

instance : DecidablePred compatAll := fun rs =>
  List.decidableBAll _ rs

/-- Two registrations of the same method at the same tree position carry the
same handler (a route table is a set of triples: re-registering the same
method and path may only re-state the same handler). -/
def uniqAll (rs : List RegS) : Prop :=
  ∀ r ∈ rs, ∀ r' ∈ rs, r.method = r'.method →
    (patsOfS r).map SegPat.keyOf = (patsOfS r').map SegPat.keyOf →
    r.handler = r'.handler

instance : DecidablePred uniqAll := fun rs =>
  List.decidableBAll _ rs

/-!
## Structural characterization of the built trie

Registering routes is a left fold of #setRoute calls; these lemmas express the
resulting node's three components as folds over the registration list, which
the resolution proofs then consume.
-/

@[simp] theorem RouteNode.varName_mk (v : Option String) (h : List (String × Nat))
    (c : List (String × RouteNode)) : (RouteNode.mk v h c).varName = v := rfl

@[simp] theorem RouteNode.handlers_mk (v : Option String) (h : List (String × Nat))
    (c : List (String × RouteNode)) : (RouteNode.mk v h c).handlers = h := rfl

@[simp] theorem RouteNode.children_mk (v : Option String) (h : List (String × Nat))
    (c : List (String × RouteNode)) : (RouteNode.mk v h c).children = c := rfl

/-- The variable name a registration's first segment declares, if any. -/
def headVar (r : RegS) : Option String :=
  match r.segs with
  | [] => none
  | s :: _ => matchVar s

/-- Last handler registered at the root for method `m`, starting from `o`. -/
def hFold (m : String) (o : Option Nat) (rs : List RegS) : Option Nat :=
  rs.foldl (fun acc r => if r.segs = [] ∧ r.method = m then some r.handler else acc) o

/-- Last variable name declared at this node, starting from `o`. -/
def vFold (o : Option String) (rs : List RegS) : Option String :=
  rs.foldl (fun acc r => match headVar r with | some v => some v | none => acc) o

/-- The registrations that descend into child `k`, with their first segment
consumed, in order. -/
def projectK (k : String) (rs : List RegS) : List RegS :=
  rs.filterMap fun r =>
    match r.segs with
    | [] => none
    | s :: rest => if segKey s = k then some ⟨r.method, rest, r.handler⟩ else none

/-- What the child for key `k` looks like after inserting `prs` below an
optional pre-existing child. -/
def childRes : Option RouteNode → List RegS → Option RouteNode
  | some c, prs => some (buildFrom c prs)
  | none, [] => none
  | none, prs => some (buildFrom emptyNode prs)

theorem setRouteSegs_cons (method : String) (handler : Nat) (n : RouteNode)
    (seg : String) (rest : List String) :
    setRouteSegs method handler n (seg :: rest) =
      RouteNode.mk
        (match matchVar seg with | some v => some v | none => n.varName)
        n.handlers
        (alSet n.children (segKey seg)
          (setRouteSegs method handler ((alGet n.children (segKey seg)).getD emptyNode) rest)) := by
  cases h : matchVar seg <;> simp [setRouteSegs, segKey, h]

theorem handlers_buildFrom (rs : List RegS) :
    ∀ (n : RouteNode) (m : String),
      alGet (buildFrom n rs).handlers m = hFold m (alGet n.handlers m) rs := by
  induction rs with
  | nil => intro n m; simp [buildFrom, hFold]
  | cons r rs ih =>
    intro n m
    have step : buildFrom n (r :: rs) = buildFrom (insertReg n r) rs := rfl
    rw [step, ih]
    cases hs : r.segs with
    | nil =>
      by_cases hm : r.method = m
      · simp [hFold, insertReg, setRouteSegs, hs, hm, alGet_alSet_self]
      · simp [hFold, insertReg, setRouteSegs, hs, hm,
          alGet_alSet_ne _ _ _ _ (fun hmm => hm hmm.symm)]
    | cons s rest =>
      simp [hFold, insertReg, hs, setRouteSegs_cons]

theorem varName_buildFrom (rs : List RegS) :
    ∀ (n : RouteNode), (buildFrom n rs).varName = vFold n.varName rs := by
  induction rs with
  | nil => intro n; simp [buildFrom, vFold]
  | cons r rs ih =>
    intro n
    have step : buildFrom n (r :: rs) = buildFrom (insertReg n r) rs := rfl
    rw [step, ih]
    cases hs : r.segs with
    | nil => simp [vFold, insertReg, setRouteSegs, hs, headVar]
    | cons s rest =>
      cases hv : matchVar s <;>
        simp [vFold, insertReg, hs, setRouteSegs_cons, headVar, hv]

theorem children_buildFrom (rs : List RegS) :
    ∀ (n : RouteNode) (k : String),
      alGet (buildFrom n rs).children k = childRes (alGet n.children k) (projectK k rs) := by
  induction rs with
  | nil =>
    intro n k
    cases h : alGet n.children k <;> simp [buildFrom, childRes, projectK, h]
  | cons r rs ih =>
    intro n k
    have step : buildFrom n (r :: rs) = buildFrom (insertReg n r) rs := rfl
    rw [step, ih]
    cases hs : r.segs with
    | nil =>
      simp [insertReg, setRouteSegs, hs, projectK, List.filterMap_cons]
    | cons s rest =>
      by_cases hk : segKey s = k
      · have hins : alGet (insertReg n r).children k =
            some (insertReg ((alGet n.children k).getD emptyNode) ⟨r.method, rest, r.handler⟩) := by
          simp [insertReg, hs, setRouteSegs_cons, hk, alGet_alSet_self]
        have hproj : projectK k (r :: rs) = ⟨r.method, rest, r.handler⟩ :: projectK k rs := by
          simp [projectK, List.filterMap_cons, hs, hk]
        rw [hins, hproj]
        cases hc : alGet n.children k with
        | some c => simp [childRes, buildFrom]
        | none => simp [childRes, buildFrom]
      · have hins : alGet (insertReg n r).children k = alGet n.children k := by
          simp [insertReg, hs, setRouteSegs_cons]
          exact alGet_alSet_ne _ _ _ _ (fun hkk => hk hkk.symm)
        have hproj : projectK k (r :: rs) = projectK k rs := by
          simp [projectK, List.filterMap_cons, hs, hk]
        rw [hins, hproj]

theorem hFold_eq_of_none (m : String) (rs : List RegS) :
    ∀ (o : Option Nat), (∀ r ∈ rs, ¬(r.segs = [] ∧ r.method = m)) → hFold m o rs = o := by
  induction rs with
  | nil => intro o _; rfl
  | cons r rs ih =>
    intro o hno
    have hr : ¬(r.segs = [] ∧ r.method = m) := hno r (by simp)
    have : hFold m o (r :: rs) = hFold m (if r.segs = [] ∧ r.method = m then some r.handler else o) rs := rfl
    rw [this, if_neg hr]
    exact ih o (fun r' hr' => hno r' (by simp [hr']))

theorem hFold_eq_some (m : String) (h : Nat) (rs : List RegS) :
    ∀ (o : Option Nat),
      (∃ r ∈ rs, r.segs = [] ∧ r.method = m) →
      (∀ r ∈ rs, r.segs = [] → r.method = m → r.handler = h) →
      hFold m o rs = some h := by
  induction rs with
  | nil => intro o hex _; simp at hex
  | cons r rs ih =>
    intro o hex hall
    have step : hFold m o (r :: rs) =
        hFold m (if r.segs = [] ∧ r.method = m then some r.handler else o) rs := rfl
    by_cases hq : r.segs = [] ∧ r.method = m
    · rw [step, if_pos hq]
      have hh : r.handler = h := hall r (by simp) hq.1 hq.2
      by_cases hex' : ∃ r' ∈ rs, r'.segs = [] ∧ r'.method = m
      · exact ih _ hex' (fun r' hr' => hall r' (by simp [hr']))
      · rw [hFold_eq_of_none m rs _ (fun r' hr' hc => hex' ⟨r', hr', hc⟩), hh]
    · rw [step, if_neg hq]
      obtain ⟨r', hr', hq'⟩ := hex
      rcases List.mem_cons.mp hr' with heq | hmem
      · exact absurd (heq ▸ hq') hq
      · exact ih _ ⟨r', hmem, hq'⟩ (fun r'' hr'' => hall r'' (by simp [hr'']))

theorem vFold_eq_of_none (rs : List RegS) :
    ∀ (o : Option String), (∀ r ∈ rs, headVar r = none) → vFold o rs = o := by
  induction rs with
  | nil => intro o _; rfl
  | cons r rs ih =>
    intro o hno
    have step : vFold o (r :: rs) =
        vFold (match headVar r with | some v => some v | none => o) rs := rfl
    rw [step, hno r (by simp)]
    exact ih o (fun r' hr' => hno r' (by simp [hr']))

theorem vFold_eq_some (v : String) (rs : List RegS) :
    ∀ (o : Option String),
      (∃ r ∈ rs, headVar r = some v) →
      (∀ r ∈ rs, headVar r = none ∨ headVar r = some v) →
      vFold o rs = some v := by
  induction rs with
  | nil => intro o hex _; simp at hex
  | cons r rs ih =>
    intro o hex hall
    have step : vFold o (r :: rs) =
        vFold (match headVar r with | some v => some v | none => o) rs := rfl
    by_cases hex' : ∃ r' ∈ rs, headVar r' = some v
    · rw [step]
      exact ih _ hex' (fun r' hr' => hall r' (by simp [hr']))
    · obtain ⟨r', hr', hv'⟩ := hex
      rcases List.mem_cons.mp hr' with heq | hmem
      · subst heq
        rw [step, hv']
        exact vFold_eq_of_none rs _ (fun r'' hr'' =>
          (hall r'' (by simp [hr''])).resolve_right
            (fun hc => hex' ⟨r'', hr'', hc⟩))
      · exact absurd ⟨r', hmem, hv'⟩ hex'

theorem patOf_eq_var (s v : String) : patOf s = SegPat.var v ↔ matchVar s = some v := by
  cases h : matchVar s <;> simp [patOf, h]

theorem patOf_eq_lit (s t : String) (h : patOf s = SegPat.lit t) :
    matchVar s = none ∧ t = s := by
  cases hv : matchVar s with
  | none => simp [patOf, hv] at h; simp [h]
  | some v => simp [patOf, hv] at h

theorem keyOf_patOf (s : String) : (patOf s).keyOf = segKey s := by
  cases h : matchVar s <;> simp [patOf, segKey, SegPat.keyOf, h]

theorem segKey_of_some (s v : String) (h : matchVar s = some v) : segKey s = v := by
  simp [segKey, h]

theorem segKey_of_none (s : String) (h : matchVar s = none) : segKey s = s := by
  simp [segKey, h]

theorem mem_projectK (k : String) (rs : List RegS) (r : RegS) (s : String)
    (rest : List String) (hr : r ∈ rs) (hs : r.segs = s :: rest) (hk : segKey s = k) :
    (⟨r.method, rest, r.handler⟩ : RegS) ∈ projectK k rs := by
  rw [projectK, List.mem_filterMap]
  exact ⟨r, hr, by rw [hs]; simp [hk]⟩

theorem of_mem_projectK (k : String) (rs : List RegS) (r' : RegS)
    (h : r' ∈ projectK k rs) :
    ∃ r ∈ rs, ∃ s rest, r.segs = s :: rest ∧ segKey s = k ∧
      r'.method = r.method ∧ r'.segs = rest ∧ r'.handler = r.handler := by
  rw [projectK, List.mem_filterMap] at h
  obtain ⟨r, hr, hmatch⟩ := h
  cases hs : r.segs with
  | nil => rw [hs] at hmatch; simp at hmatch
  | cons s rest =>
    rw [hs] at hmatch
    by_cases hk : segKey s = k
    · have heq : (⟨r.method, rest, r.handler⟩ : RegS) = r' := by
        simpa [hk] using hmatch
      subst heq
      exact ⟨r, hr, s, rest, hs, hk, rfl, rfl, rfl⟩
    · simp [hk] at hmatch

theorem compatAll_projectK (k : String) (rs : List RegS) (hc : compatAll rs) :
    compatAll (projectK k rs) := by
  intro r1' h1 r2' h2
  obtain ⟨r1, hr1, s1, rest1, hs1, hk1, hm1, hsg1, hh1⟩ := of_mem_projectK k rs r1' h1
  obtain ⟨r2, hr2, s2, rest2, hs2, hk2, hm2, hsg2, hh2⟩ := of_mem_projectK k rs r2' h2
  have hc12 := hc r1 hr1 r2 hr2
  rw [patsOfS, patsOfS, hs1, hs2, List.map_cons, List.map_cons] at hc12
  have hkeq : (patOf s1).keyOf = (patOf s2).keyOf := by
    rw [keyOf_patOf, keyOf_patOf, hk1, hk2]
  rw [patsCompat, hkeq] at hc12
  simp only [ne_eq, not_true_eq_false, decide_False, Bool.false_or,
    Bool.and_eq_true] at hc12
  rw [patsOfS, patsOfS, hsg1, hsg2]
  exact hc12.2

theorem uniqAll_projectK (k : String) (rs : List RegS) (hu : uniqAll rs) :
    uniqAll (projectK k rs) := by
  intro r1' h1 r2' h2 hm hkeys
  obtain ⟨r1, hr1, s1, rest1, hs1, hk1, hm1, hsg1, hh1⟩ := of_mem_projectK k rs r1' h1
  obtain ⟨r2, hr2, s2, rest2, hs2, hk2, hm2, hsg2, hh2⟩ := of_mem_projectK k rs r2' h2
  rw [hh1, hh2]
  refine hu r1 hr1 r2 hr2 (by rw [← hm1, ← hm2, hm]) ?_
  rw [patsOfS, patsOfS, hs1, hs2, List.map_cons, List.map_cons,
    List.map_cons, List.map_cons, keyOf_patOf, keyOf_patOf, hk1, hk2]
  rw [patsOfS, patsOfS, hsg1, hsg2] at hkeys
  rw [hkeys]

/-- Core induction: under pairwise compatibility and handler uniqueness, a
resolution whose path instantiates a registered pattern finds that
registration's handler and extends the variable map exactly by the expected
bindings, in path order. -/
theorem getRouteSegs_buildFrom_ok (m : String) (h : Nat) :
    ∀ (xs : List String) (rs : List RegS) (p : List SegPat) (vars : List (String × String)),
      compatAll rs → uniqAll rs →
      (∃ r ∈ rs, r.method = m ∧ patsOfS r = p ∧ r.handler = h) →
      instantiates p xs = true →
      (patVarNames p).Nodup →
      (∀ v ∈ patVarNames p, alGet vars v = none) →
      getRouteSegs m (buildFrom emptyNode rs) vars xs = some (h, vars ++ expVars p xs) := by
  intro xs
  induction xs with
  | nil =>
    intro rs p vars hc hu hex hinst hnd hfresh
    have hpnil : p = [] := by
      cases p with
      | nil => rfl
      | cons q p' => cases q <;> simp [instantiates] at hinst
    subst hpnil
    obtain ⟨r, hr, hm, hp, hh⟩ := hex
    have hsegs : r.segs = [] := by
      rw [patsOfS] at hp
      exact List.map_eq_nil_iff.mp hp
    have hH : alGet (buildFrom emptyNode rs).handlers m = some h := by
      rw [handlers_buildFrom]
      have hemp : alGet emptyNode.handlers m = none := rfl
      rw [hemp]
      refine hFold_eq_some m h rs none ⟨r, hr, hsegs, hm⟩ ?_
      intro r' hr' hs' hm'
      have := hu r' hr' r hr (by rw [hm', hm]) (by simp [patsOfS, hs', hsegs])
      rw [this, hh]
    simp [getRouteSegs, hH, expVars]
  | cons x xs' ih =>
    intro rs p vars hc hu hex hinst hnd hfresh
    obtain ⟨r, hr, hm, hp, hh⟩ := hex
    cases p with
    | nil => simp [instantiates] at hinst
    | cons q p' =>
      rw [patsOfS] at hp
      obtain ⟨s, srest, hsegs, hq, hp'⟩ :
          ∃ s srest, r.segs = s :: srest ∧ patOf s = q ∧ srest.map patOf = p' := by
        cases hseg : r.segs with
        | nil => rw [hseg] at hp; simp at hp
        | cons s srest =>
          rw [hseg] at hp
          simp only [List.map_cons, List.cons.injEq] at hp
          exact ⟨s, srest, rfl, hp.1, hp.2⟩
      cases q with
      | var v =>
        have hmv : matchVar s = some v := (patOf_eq_var s v).mp hq
        have hkey : segKey s = v := segKey_of_some s v hmv
        have hvar : (buildFrom emptyNode rs).varName = some v := by
          rw [varName_buildFrom]
          have hemp : emptyNode.varName = none := rfl
          rw [hemp]
          refine vFold_eq_some v rs none ⟨r, hr, by simp [headVar, hsegs, hmv]⟩ ?_
          intro r' hr'
          cases hseg' : r'.segs with
          | nil => left; simp [headVar, hseg']
          | cons s' rest' =>
            have hcc := hc r hr r' hr'
            rw [patsOfS, patsOfS, hsegs, hseg', List.map_cons, List.map_cons] at hcc
            simp only [patsCompat, Bool.and_eq_true] at hcc
            have hslot := hcc.1
            rw [hq] at hslot
            cases hq' : patOf s' with
            | lit t => rw [hq'] at hslot; simp [slotCompat] at hslot
            | var w =>
              rw [hq'] at hslot
              have hvw : v = w := by simpa [slotCompat] using hslot
              have hmv' : matchVar s' = some w := (patOf_eq_var s' w).mp hq'
              right
              simp [headVar, hseg', hmv', hvw]
        have hmem := mem_projectK v rs r s srest hr hsegs hkey
        have hchild : alGet (buildFrom emptyNode rs).children v =
            some (buildFrom emptyNode (projectK v rs)) := by
          rw [children_buildFrom]
          have hempc : alGet emptyNode.children v = none := rfl
          rw [hempc]
          cases hpr : projectK v rs with
          | nil => rw [hpr] at hmem; simp at hmem
          | cons a l => simp [childRes]
        have hpv : patVarNames (SegPat.var v :: p') = v :: patVarNames p' := by
          simp [patVarNames]
        rw [hpv] at hnd hfresh
        have hfrv : alGet vars v = none := hfresh v (List.mem_cons_self v _)
        have hndtail := List.nodup_cons.mp hnd
        have happ := ih (projectK v rs) p' (alSet vars v x)
          (compatAll_projectK v rs hc) (uniqAll_projectK v rs hu)
          ⟨⟨r.method, srest, r.handler⟩, hmem, hm, by simp [patsOfS, hp'], hh⟩
          (by simpa [instantiates] using hinst)
          hndtail.2
          (by
            intro w hw
            have hwv : w ≠ v := fun e => hndtail.1 (e ▸ hw)
            rw [alGet_alSet_ne vars v w x hwv]
            exact hfresh w (List.mem_cons_of_mem v hw))
        simp only [getRouteSegs, hvar, hchild]
        rw [happ, alSet_append_of_none vars v x hfrv]
        simp [expVars]
      | lit t =>
        obtain ⟨hmv, hts⟩ := patOf_eq_lit s t hq
        have hkey : segKey s = s := segKey_of_none s hmv
        have hinst' : x = t ∧ instantiates p' xs' = true := by
          simpa [instantiates] using hinst
        have hxs : x = s := by rw [hinst'.1, hts]
        have hvar : (buildFrom emptyNode rs).varName = none := by
          rw [varName_buildFrom]
          refine vFold_eq_of_none rs none ?_
          intro r' hr'
          cases hseg' : r'.segs with
          | nil => simp [headVar, hseg']
          | cons s' rest' =>
            have hcc := hc r hr r' hr'
            rw [patsOfS, patsOfS, hsegs, hseg', List.map_cons, List.map_cons] at hcc
            simp only [patsCompat, Bool.and_eq_true] at hcc
            have hslot := hcc.1
            rw [hq] at hslot
            cases hq' : patOf s' with
            | var w => rw [hq'] at hslot; simp [slotCompat] at hslot
            | lit t' =>
              have hmv' : matchVar s' = none := (patOf_eq_lit s' t' hq').1
              simp [headVar, hseg', hmv']
        have hmem := mem_projectK s rs r s srest hr hsegs hkey
        have hchild : alGet (buildFrom emptyNode rs).children s =
            some (buildFrom emptyNode (projectK s rs)) := by
          rw [children_buildFrom]
          have hempc : alGet emptyNode.children s = none := rfl
          rw [hempc]
          cases hpr : projectK s rs with
          | nil => rw [hpr] at hmem; simp at hmem
          | cons a l => simp [childRes]
        have happ := ih (projectK s rs) p' vars
          (compatAll_projectK s rs hc) (uniqAll_projectK s rs hu)
          ⟨⟨r.method, srest, r.handler⟩, hmem, hm, by simp [patsOfS, hp'], hh⟩
          hinst'.2
          (by simpa [patVarNames] using hnd)
          (fun w hw => hfresh w (by
            have hpl : patVarNames (SegPat.lit t :: p') = patVarNames p' := by
              simp [patVarNames]
            rw [hpl]
            exact hw))
        subst hxs
        simp only [getRouteSegs, hvar, hchild]
        rw [happ]
        simp [expVars]

/-- C1 (counterexample to the claim as stated): two registrations that do not
differ by variable-vs-static ambiguity at any shared position — they use only
variable segments, named differently — still break resolution: `GET /5`
instantiates the registered path `/{x}` with a matching method, yet #getRoute
returns null, because the second registration overwrote the node's variable
name and descent keys on the new name. -/
theorem c1_counterexample :
    mixFreeAll ([⟨"GET", "/{x}", 0⟩, ⟨"GET", "/{y}/b", 1⟩].map Route.toRegS) = true ∧
    (⟨"GET", "/{x}", 0⟩ : Route) ∈ [⟨"GET", "/{x}", 0⟩, ⟨"GET", "/{y}/b", 1⟩] ∧
    instantiates (patsOf "/{x}") (segsOf "/5") = true ∧
    getRoute (buildTrie [⟨"GET", "/{x}", 0⟩, ⟨"GET", "/{y}/b", 1⟩]) "GET" "/5" = none := by
  refine ⟨by decide, by decide, by decide, by decide⟩

/-- C1 (amended): for every set of registered `(method, path, handler)`
triples in which no two registrations disagree on variable-ness **or on the
variable's name** at the same tree position, re-registrations of one method
and position carry one handler, and each path's variable names are pairwise
distinct, resolving via #getRoute a request whose method matches a
registration and whose path instantiates that registration's path returns
exactly that handler, and `req.vars` binds each variable segment's name to the
literal segment text at that position, in path order. -/
theorem c1_router_amended
    (regs : List Route) (method url reqUrl : String) (handler : Nat)
    (hc : compatAll (regs.map Route.toRegS))
    (hu : uniqAll (regs.map Route.toRegS))
    (hmem : (⟨method, url, handler⟩ : Route) ∈ regs)
    (hinst : instantiates (patsOf url) (segsOf reqUrl) = true)
    (hnd : (patVarNames (patsOf url)).Nodup) :
    getRoute (buildTrie regs) method reqUrl =
      some (handler, expVars (patsOf url) (segsOf reqUrl)) := by
  have hmm : Route.toRegS ⟨method, url, handler⟩ ∈ regs.map Route.toRegS :=
    List.mem_map_of_mem Route.toRegS hmem
  have := getRouteSegs_buildFrom_ok method handler (segsOf reqUrl)
    (regs.map Route.toRegS) (patsOf url) [] hc hu
    ⟨Route.toRegS ⟨method, url, handler⟩, hmm, rfl, rfl, rfl⟩
    hinst hnd (fun v _ => rfl)
  rw [getRoute, buildTrie] at *
  rw [this]
  simp

/-- C1 witness: the spec's own example, `GET /api/soups/{soupId}` resolved at
`GET /api/soups/42`, through the amended theorem. -/
theorem c1_router_amended_witness :
    getRoute (buildTrie [⟨"GET", "/api/soups/{soupId}", 7⟩]) "GET" "/api/soups/42"
      = some (7, [("soupId", "42")]) := by
  have := c1_router_amended [⟨"GET", "/api/soups/{soupId}", 7⟩]
    "GET" "/api/soups/{soupId}" "/api/soups/42" 7
    (by decide) (by decide) (by decide) (by decide) (by decide)
  rw [this]
  decide

/-!
## Static-only router claims (C5)

With no variable-delimiter pattern configured the router keys a flat map by
the whole URL string; with the delimiter configured but no variable segments
registered it descends the trie by literal segments. Both modes are
characterized as "last matching registration wins" folds and then compared.
-/

/-- No registered segment matches the variable pattern. -/
def allLit (rs : List RegS) : Prop := ∀ r ∈ rs, ∀ s ∈ r.segs, matchVar s = none

/-- Boolean form over raw registrations. -/
def noVarSegs (regs : List Route) : Bool :=
  regs.all fun r => (segsOf r.url).all fun s => (matchVar s).isNone

/-- Last handler among `rs` registered for method `m` at exactly the segment
list `xs`, starting from `o`. -/
def lastSegsMatchFrom (m : String) (xs : List String) (o : Option Nat)
    (rs : List RegS) : Option Nat :=
  rs.foldl (fun acc r => if r.segs = xs ∧ r.method = m then some r.handler else acc) o

/-- Last handler among `regs` registered for method `m` at exactly the URL
string `u`, starting from `o`. -/
def lastUrlMatchFrom (m u : String) (o : Option Nat) (regs : List Route) : Option Nat :=
  regs.foldl (fun acc r => if r.url = u ∧ r.method = m then some r.handler else acc) o

theorem allLit_projectK (k : String) (rs : List RegS) (h : allLit rs) :
    allLit (projectK k rs) := by
  intro r' hr' s' hs'
  obtain ⟨r, hr, s, rest, hsegs, hk, hm, hsg, hh⟩ := of_mem_projectK k rs r' hr'
  apply h r hr s'
  rw [hsegs]
  rw [hsg] at hs'
  exact List.mem_cons_of_mem s hs'

theorem lastSegs_projectK (m x : String) (rs : List RegS) :
    ∀ (xs' : List String) (o : Option Nat), allLit rs →
      lastSegsMatchFrom m xs' o (projectK x rs) =
        lastSegsMatchFrom m (x :: xs') o rs := by
  induction rs with
  | nil => intro xs' o _; rfl
  | cons r rs ih =>
    intro xs' o hlit
    have hlit' : allLit rs := fun r' hr' => hlit r' (List.mem_cons_of_mem r hr')
    cases hsegs : r.segs with
    | nil =>
      have hproj : projectK x (r :: rs) = projectK x rs := by
        simp [projectK, List.filterMap_cons, hsegs]
      have hcond : ¬(r.segs = x :: xs' ∧ r.method = m) := by
        rw [hsegs]; rintro ⟨hfalse, -⟩; cases hfalse
      have hstep : lastSegsMatchFrom m (x :: xs') o (r :: rs) =
          lastSegsMatchFrom m (x :: xs') o rs := by
        rw [lastSegsMatchFrom, List.foldl_cons, if_neg hcond]; rfl
      rw [hproj, hstep]
      exact ih xs' o hlit'
    | cons s rest =>
      have hmv : matchVar s = none := hlit r (by simp) s (by rw [hsegs]; simp)
      have hkeyeq : segKey s = s := segKey_of_none s hmv
      by_cases hx : s = x
      · subst hx
        have hproj : projectK s (r :: rs) =
            (⟨r.method, rest, r.handler⟩ : RegS) :: projectK s rs := by
          simp [projectK, List.filterMap_cons, hsegs, hkeyeq]
        rw [hproj]
        have hcondiff : ((⟨r.method, rest, r.handler⟩ : RegS).segs = xs' ∧
            (⟨r.method, rest, r.handler⟩ : RegS).method = m) ↔
            (r.segs = s :: xs' ∧ r.method = m) := by
          rw [hsegs]; simp
        have hstepL : lastSegsMatchFrom m xs' o
            ((⟨r.method, rest, r.handler⟩ : RegS) :: projectK s rs) =
            lastSegsMatchFrom m xs' (if r.segs = s :: xs' ∧ r.method = m
              then some r.handler else o) (projectK s rs) := by
          rw [lastSegsMatchFrom, List.foldl_cons]
          by_cases hcc : r.segs = s :: xs' ∧ r.method = m
          · rw [if_pos (hcondiff.mpr hcc), if_pos hcc]; rfl
          · rw [if_neg (fun hcc' => hcc (hcondiff.mp hcc')), if_neg hcc]; rfl
        have hstepR : lastSegsMatchFrom m (s :: xs') o (r :: rs) =
            lastSegsMatchFrom m (s :: xs') (if r.segs = s :: xs' ∧ r.method = m
              then some r.handler else o) rs := by
          rw [lastSegsMatchFrom, List.foldl_cons]; rfl
        rw [hstepL, hstepR]
        exact ih xs' _ hlit'
      · have hproj : projectK x (r :: rs) = projectK x rs := by
          simp [projectK, List.filterMap_cons, hsegs, hkeyeq, hx]
        have hcond : ¬(r.segs = x :: xs' ∧ r.method = m) := by
          rw [hsegs]; rintro ⟨hfalse, -⟩
          injection hfalse with h1 h2
          exact hx h1
        have hstep : lastSegsMatchFrom m (x :: xs') o (r :: rs) =
            lastSegsMatchFrom m (x :: xs') o rs := by
          rw [lastSegsMatchFrom, List.foldl_cons, if_neg hcond]; rfl
        rw [hproj, hstep]
        exact ih xs' o hlit'

/-- Trie-mode resolution over variable-free registrations is exactly "last
registration with these segments and this method wins", and never touches the
variable map. -/
theorem getRouteSegs_allLit_char (m : String) :
    ∀ (xs : List String) (rs : List RegS) (vars : List (String × String)),
      allLit rs →
      getRouteSegs m (buildFrom emptyNode rs) vars xs =
        (lastSegsMatchFrom m xs none rs).map (fun h => (h, vars)) := by
  intro xs
  induction xs with
  | nil =>
    intro rs vars hlit
    have hH : alGet (buildFrom emptyNode rs).handlers m = lastSegsMatchFrom m [] none rs := by
      rw [handlers_buildFrom]
      rfl
    simp only [getRouteSegs, hH]
    cases lastSegsMatchFrom m [] none rs <;> simp
  | cons x xs' ih =>
    intro rs vars hlit
    have hvar : (buildFrom emptyNode rs).varName = none := by
      rw [varName_buildFrom]
      refine vFold_eq_of_none rs none ?_
      intro r' hr'
      cases hseg' : r'.segs with
      | nil => simp [headVar, hseg']
      | cons s' rest' =>
        have := hlit r' hr' s' (by rw [hseg']; simp)
        simp [headVar, hseg', this]
    have hChild := children_buildFrom rs emptyNode x
    have hempc : alGet emptyNode.children x = none := rfl
    rw [hempc] at hChild
    have hLast : lastSegsMatchFrom m (x :: xs') none rs =
        lastSegsMatchFrom m xs' none (projectK x rs) :=
      (lastSegs_projectK m x rs xs' none hlit).symm
    cases hpr : projectK x rs with
    | nil =>
      rw [hpr] at hChild
      simp only [getRouteSegs, hvar, hChild]
      rw [hLast, hpr]
      rfl
    | cons a l =>
      rw [hpr] at hChild
      have hChild' : alGet (buildFrom emptyNode rs).children x =
          some (buildFrom emptyNode (a :: l)) := by
        rw [hChild]; rfl
      simp only [getRouteSegs, hvar, hChild']
      rw [hLast, hpr]
      exact ih (a :: l) vars (by rw [← hpr]; exact allLit_projectK x rs hlit)

/-- Static-mode resolution is exactly "last registration with this URL string
and this method wins". -/
theorem getRouteStatic_char (m u : String) :
    ∀ (regs : List Route) (rt : List (String × List (String × Nat))),
      getRouteStatic
        (regs.foldl (fun rt r => setRouteStatic rt r.method r.url r.handler) rt) m u =
        lastUrlMatchFrom m u (getRouteStatic rt m u) regs := by
  intro regs
  induction regs with
  | nil => intro rt; rfl
  | cons r rs ih =>
    intro rt
    have hstepf : (r :: rs).foldl (fun rt r => setRouteStatic rt r.method r.url r.handler) rt =
        rs.foldl (fun rt r => setRouteStatic rt r.method r.url r.handler)
          (setRouteStatic rt r.method r.url r.handler) := rfl
    have hstepl : lastUrlMatchFrom m u (getRouteStatic rt m u) (r :: rs) =
        lastUrlMatchFrom m u
          (if r.url = u ∧ r.method = m then some r.handler else getRouteStatic rt m u) rs := rfl
    rw [hstepf, hstepl, ih]
    congr 1
    by_cases hurl : r.url = u
    · subst hurl
      by_cases hm : r.method = m
      · subst hm
        rw [if_pos ⟨rfl, rfl⟩]
        cases hmp : alGet rt r.url with
        | none =>
          simp [getRouteStatic, setRouteStatic, hmp, alGet_alSet_self]
        | some mp =>
          simp [getRouteStatic, setRouteStatic, hmp, alGet_alSet_self]
      · rw [if_neg (fun hc => hm hc.2)]
        have hne : m ≠ r.method := fun e => hm e.symm
        cases hmp : alGet rt r.url with
        | none =>
          simp [getRouteStatic, setRouteStatic, hmp, alGet_alSet_self,
            alGet_alSet_ne [] r.method m r.handler hne, alGet, hm]
        | some mp =>
          simp [getRouteStatic, setRouteStatic, hmp, alGet_alSet_self,
            alGet_alSet_ne mp r.method m r.handler hne, hm]
    · rw [if_neg (fun hc => hurl hc.1)]
      have hne : u ≠ r.url := fun e => hurl e.symm
      cases hmp : alGet rt r.url with
      | none =>
        simp [getRouteStatic, setRouteStatic, hmp, alGet_alSet_ne rt r.url u _ hne]
      | some mp =>
        simp [getRouteStatic, setRouteStatic, hmp, alGet_alSet_ne rt r.url u _ hne]

theorem allLit_of_noVarSegs (regs : List Route) (h : noVarSegs regs = true) :
    allLit (regs.map Route.toRegS) := by
  intro r' hr' s hs
  rw [List.mem_map] at hr'
  obtain ⟨r, hr, hR⟩ := hr'
  rw [noVarSegs, List.all_eq_true] at h
  have := h r hr
  rw [List.all_eq_true] at this
  have hsub : s ∈ segsOf r.url := by
    rw [← hR] at hs
    exact hs
  have := this s hsub
  exact Option.isNone_iff_eq_none.mp this

theorem lastSegs_eq_lastUrl (m u : String) (regs : List Route) :
    ∀ (o : Option Nat),
      (∀ r ∈ regs, (segsOf r.url = segsOf u ∧ r.method = m) ↔ (r.url = u ∧ r.method = m)) →
      lastSegsMatchFrom m (segsOf u) o (regs.map Route.toRegS) =
        lastUrlMatchFrom m u o regs := by
  induction regs with
  | nil => intro o _; rfl
  | cons r rs ih =>
    intro o hiff
    have hiffr := hiff r (by simp)
    have hstepL : lastSegsMatchFrom m (segsOf u) o ((r :: rs).map Route.toRegS) =
        lastSegsMatchFrom m (segsOf u)
          (if segsOf r.url = segsOf u ∧ r.method = m then some r.handler else o)
          (rs.map Route.toRegS) := rfl
    have hstepR : lastUrlMatchFrom m u o (r :: rs) =
        lastUrlMatchFrom m u
          (if r.url = u ∧ r.method = m then some r.handler else o) rs := rfl
    rw [hstepL, hstepR]
    have hsame : (if segsOf r.url = segsOf u ∧ r.method = m then some r.handler else o) =
        (if r.url = u ∧ r.method = m then some r.handler else o) := by
      by_cases hc : r.url = u ∧ r.method = m
      · rw [if_pos (hiffr.mpr hc), if_pos hc]
      · rw [if_neg (fun hc' => hc (hiffr.mp hc')), if_neg hc]
    rw [hsame]
    exact ih _ (fun r' hr' => hiff r' (List.mem_cons_of_mem r hr'))

/-- Registered URLs that split to the same segments are the same string. -/
def segsInjectiveOn (regs : List Route) : Prop :=
  ∀ r ∈ regs, ∀ r' ∈ regs, segsOf r.url = segsOf r'.url → r.url = r'.url

instance : DecidablePred segsInjectiveOn := fun regs =>
  List.decidableBAll _ regs

/-- C5 (counterexample to the claim as stated): one variable-free registration
`GET /a`; looking up `GET a` — the same path up to a leading slash — misses in
static-only mode (flat string key `"/a"` ≠ `"a"`) but hits in trie mode (both
split to the segment list `["a"]`), so the two modes are not identical on
paths with leading/trailing/duplicated slashes. -/
theorem c5_counterexample :
    noVarSegs [⟨"GET", "/a", 0⟩] = true ∧
    getRouteStatic (buildStatic [⟨"GET", "/a", 0⟩]) "GET" "a" = none ∧
    getRoute (buildTrie [⟨"GET", "/a", 0⟩]) "GET" "a" = some (0, []) := by
  refine ⟨by decide, by decide, by decide⟩

/-- C5 (amended): for registrations with no variable segments, static-only
mode (flat URL-string key) and trie mode (per-segment descent) agree on every
lookup whose URL is string-identical to a registered URL, and on every lookup
whose segment split matches no registered URL — provided no two registered
URLs split to the same segments; a trie hit additionally extracts no
variables. Lookups that differ from a registered URL only by leading,
trailing, or duplicated slashes are exactly where the modes part ways (trie
hits, static misses; see the counterexample). -/
theorem c5_static_trie_amended (regs : List Route) (m u : String)
    (hlit : noVarSegs regs = true)
    (hinj : segsInjectiveOn regs)
    (hq : (∃ r ∈ regs, r.url = u) ∨ (∀ r ∈ regs, segsOf r.url ≠ segsOf u)) :
    getRoute (buildTrie regs) m u =
      (getRouteStatic (buildStatic regs) m u).map (fun h => (h, [])) := by
  have hall : allLit (regs.map Route.toRegS) := allLit_of_noVarSegs regs hlit
  have hL : getRoute (buildTrie regs) m u =
      (lastSegsMatchFrom m (segsOf u) none (regs.map Route.toRegS)).map (fun h => (h, [])) := by
    rw [getRoute, buildTrie]
    exact getRouteSegs_allLit_char m (segsOf u) (regs.map Route.toRegS) [] hall
  have hR : getRouteStatic (buildStatic regs) m u = lastUrlMatchFrom m u none regs := by
    rw [buildStatic]
    have := getRouteStatic_char m u regs []
    rw [this]
    rfl
  rw [hL, hR]
  congr 1
  apply lastSegs_eq_lastUrl
  intro r hr
  constructor
  · rintro ⟨hseg, hm⟩
    refine ⟨?_, hm⟩
    rcases hq with ⟨r₀, hr₀, hu₀⟩ | hnone
    · have : segsOf r.url = segsOf r₀.url := by rw [hseg, hu₀]
      have := hinj r hr r₀ hr₀ this
      rw [this, hu₀]
    · exact absurd hseg (hnone r hr)
  · rintro ⟨hurl, hm⟩
    exact ⟨by rw [hurl], hm⟩

/-- C5 witness: a concrete variable-free route table where both modes agree on
a registered lookup, via the amended theorem. -/
theorem c5_static_trie_amended_witness :
    getRoute (buildTrie [⟨"GET", "/a", 0⟩, ⟨"POST", "/b", 1⟩]) "GET" "/a" =
      (getRouteStatic (buildStatic [⟨"GET", "/a", 0⟩, ⟨"POST", "/b", 1⟩]) "GET" "/a").map
        (fun h => (h, [])) :=
  c5_static_trie_amended [⟨"GET", "/a", 0⟩, ⟨"POST", "/b", 1⟩] "GET" "/a"
    (by decide) (by decide) (Or.inl ⟨⟨"GET", "/a", 0⟩, by decide, rfl⟩)

/-!
## WebSocket frame codec (src/server.js, #decodeWsMessage lines 633-690,
#encodeWsMessage lines 693-724)

Buffers are lists of byte values. Node's `readUInt8`/`readUInt16BE`/
`readUInt32BE` throw a RangeError when the read runs past the end of the
buffer; that is the `.error .rangeError` case. Bitwise operations on bytes
are Nat `&&&`, `>>>`, `^^^` exactly as the source applies them.
-/

/-- Decidable equality for embedded results, used by concrete evaluations. -/
instance {e a : Type} [DecidableEq e] [DecidableEq a] : DecidableEq (Except e a) := fun x y =>
  match x, y with
  | .ok u, .ok v =>
    if h : u = v then .isTrue (by rw [h])
    else .isFalse (by intro hc; injection hc; contradiction)
  | .error u, .error v =>
    if h : u = v then .isTrue (by rw [h])
    else .isFalse (by intro hc; injection hc; contradiction)
  | .ok _, .error _ => .isFalse (by intro hc; injection hc)
  | .error _, .ok _ => .isFalse (by intro hc; injection hc)

/-- `buffer.readUInt8(i)`. -/
def readUInt8 (buffer : List Nat) (i : Nat) : Except JsError Nat :=
  match buffer[i]? with
  | some b => .ok b
  | none => .error .rangeError

/-- `buffer.readUInt16BE(i)`: two bytes, big-endian. -/
def readUInt16BE (buffer : List Nat) (i : Nat) : Except JsError Nat :=
  match buffer[i]?, buffer[i+1]? with
  | some b0, some b1 => .ok (b0 * 256 + b1)
  | _, _ => .error .rangeError

/-- `buffer.readUInt32BE(i)`: four bytes, big-endian. -/
def readUInt32BE (buffer : List Nat) (i : Nat) : Except JsError Nat :=
  match buffer[i]?, buffer[i+1]?, buffer[i+2]?, buffer[i+3]? with
  | some b0, some b1, some b2, some b3 =>
    .ok (b0 * 16777216 + b1 * 65536 + b2 * 256 + b3)
  | _, _, _, _ => .error .rangeError

/-- The four mask components, pushed for `i = 24, 16, 8, 0` as
`(i === 0 ? maskingKey : maskingKey >>> i) & 0xff`. -/
def wsMasks (maskingKey : Nat) : List Nat :=
  [(maskingKey >>> 24) &&& 0xff, (maskingKey >>> 16) &&& 0xff,
   (maskingKey >>> 8) &&& 0xff, maskingKey &&& 0xff]

/-- The decoder's unmasking loop: read each payload byte at the running
offset, XOR it with the mask component selected by `maskI` (which cycles
`0,1,2,3,0,…` exactly as the `if (maskI < 3)` update does), `n` bytes in
total. A read past the end of the buffer throws. -/
def wsUnmaskLoop (buffer masks : List Nat) (off maskI : Nat) :
    Nat → Except JsError (List Nat)
  | 0 => .ok []
  | n + 1 =>
    match readUInt8 buffer off with
    | .error e => .error e
    | .ok source =>
      match wsUnmaskLoop buffer masks (off + 1) (if maskI < 3 then maskI + 1 else 0) n with
      | .error e => .error e
      | .ok rest => .ok (((masks.getD maskI 0) ^^^ source) :: rest)

/-- #decodeWsMessage: opcode must be text (low 4 bits of byte 0 equal 1), the
mask bit (bit 7 of byte 1) must be set, the 7-bit base length 126 pulls a
16-bit big-endian length, 127 is unsupported; then a 4-byte masking key and
the XOR-unmasked payload. `.ok none` is the source's bare `return` (frame
ignored, `socket.message` never assigned); `.ok (some msg)` is a decoded
payload written to `socket.message`; `.error` is a thrown RangeError (on the
throwing path the source may already have assigned `socket.message` an
uninitialized buffer, but the exception propagates before any callback runs).
The source computes length and key in one pass with a running
`currentOffset`; the 126 branch and the short branch are spelled out here with
their respective offsets 2/4/8 and 2/6. -/
def decodeWsMessage (buffer : List Nat) : Except JsError (Option (List Nat)) :=
  match readUInt8 buffer 0 with
  | .error e => .error e
  | .ok byte0 =>
    if byte0 &&& 0xf ≠ 0x1 then .ok none
    else
      match readUInt8 buffer 1 with
      | .error e => .error e
      | .ok byte1 =>
        if (byte1 >>> 7) &&& 0x1 = 0 then .ok none
        else if byte1 &&& 0x7f = 126 then
          match readUInt16BE buffer 2 with
          | .error e => .error e
          | .ok payloadLength =>
            match readUInt32BE buffer 4 with
            | .error e => .error e
            | .ok maskingKey =>
              match wsUnmaskLoop buffer (wsMasks maskingKey) 8 0 payloadLength with
              | .error e => .error e
              | .ok msg => .ok (some msg)
        else if byte1 &&& 0x7f ≥ 127 then .ok none
        else
          match readUInt32BE buffer 2 with
          | .error e => .error e
          | .ok maskingKey =>
            match wsUnmaskLoop buffer (wsMasks maskingKey) 6 0 (byte1 &&& 0x7f) with
            | .error e => .error e
            | .ok msg => .ok (some msg)

/-- #encodeWsMessage on the UTF-8 bytes of the serialized text: byte 0 is
`0b10000001` (FIN, text opcode), a byte length below 126 is stored in byte 1,
otherwise byte 1 is 126 and bytes 2-3 are the big-endian 16-bit length
(`writeUInt16BE` throws a RangeError for values above 0xffff, so lengths of
65536 and up are not supported); the unmasked payload follows. -/
def encodeWsMessage (data : List Nat) : Except JsError (List Nat) :=
  let byteLength := data.length
  if byteLength < 126 then .ok (0b10000001 :: byteLength :: data)
  else if byteLength < 65536 then
    .ok (0b10000001 :: 126 :: byteLength / 256 :: byteLength % 256 :: data)
  else .error .rangeError

/-- The synthetic client mask of the round-trip property (spec section 8):
byte `i` of the payload is XORed with mask component `i mod 4`. -/
def applyMask (m0 m1 m2 m3 : Nat) : Nat → List Nat → List Nat
  | _, [] => []
  | i, b :: bs =>
    ((if i % 4 = 0 then m0 else if i % 4 = 1 then m1 else if i % 4 = 2 then m2 else m3) ^^^ b)
      :: applyMask m0 m1 m2 m3 (i + 1) bs

/-- The synthetic client-frame transformation of the round-trip property
(spec section 8): set the mask bit of byte 1, insert the 4-byte masking key
after the length field, and XOR-mask the payload. -/
def maskClientFrame (m0 m1 m2 m3 : Nat) (frame : List Nat) : List Nat :=
  match frame with
  | b0 :: b1 :: rest =>
    if b1 &&& 0x7f = 126 then
      match rest with
      | hi :: lo :: payload =>
        b0 :: (b1 ||| 0x80) :: hi :: lo :: m0 :: m1 :: m2 :: m3 ::
          applyMask m0 m1 m2 m3 0 payload
      | _ => frame
    else
      b0 :: (b1 ||| 0x80) :: m0 :: m1 :: m2 :: m3 :: applyMask m0 m1 m2 m3 0 rest
  | _ => frame

theorem and255_eq_mod (x : Nat) : x &&& 255 = x % 256 := by
  have h := Nat.and_pow_two_sub_one_eq_mod x 8
  norm_num at h
  exact h

theorem and127_eq_mod (x : Nat) : x &&& 127 = x % 128 := by
  have h := Nat.and_pow_two_sub_one_eq_mod x 7
  norm_num at h
  exact h

theorem lor128_of_lt : ∀ L < 128, L ||| 128 = L + 128 := by decide

theorem readUInt8_zero (a : Nat) (l : List Nat) : readUInt8 (a :: l) 0 = .ok a := by
  simp [readUInt8]

theorem readUInt8_one (a b : Nat) (l : List Nat) : readUInt8 (a :: b :: l) 1 = .ok b := by
  simp [readUInt8]

theorem readUInt16BE_two (a b c d : Nat) (l : List Nat) :
    readUInt16BE (a :: b :: c :: d :: l) 2 = .ok (c * 256 + d) := by
  simp [readUInt16BE]

theorem readUInt32BE_two (a b c d e f : Nat) (l : List Nat) :
    readUInt32BE (a :: b :: c :: d :: e :: f :: l) 2 =
      .ok (c * 16777216 + d * 65536 + e * 256 + f) := by
  simp [readUInt32BE]

theorem readUInt32BE_four (a b c d e f g h : Nat) (l : List Nat) :
    readUInt32BE (a :: b :: c :: d :: e :: f :: g :: h :: l) 4 =
      .ok (e * 16777216 + f * 65536 + g * 256 + h) := by
  simp [readUInt32BE]

/-- Recomposing the four mask components from the big-endian 32-bit masking
key recovers them exactly. -/
theorem wsMasks_bytes (m0 m1 m2 m3 : Nat)
    (hm0 : m0 < 256) (hm1 : m1 < 256) (hm2 : m2 < 256) (hm3 : m3 < 256) :
    wsMasks (m0 * 16777216 + m1 * 65536 + m2 * 256 + m3) = [m0, m1, m2, m3] := by
  rw [wsMasks]
  have e24 : (m0 * 16777216 + m1 * 65536 + m2 * 256 + m3) >>> 24 &&& 255 = m0 := by
    rw [Nat.shiftRight_eq_div_pow, and255_eq_mod]
    norm_num
    omega
  have e16 : (m0 * 16777216 + m1 * 65536 + m2 * 256 + m3) >>> 16 &&& 255 = m1 := by
    rw [Nat.shiftRight_eq_div_pow, and255_eq_mod]
    norm_num
    omega
  have e8 : (m0 * 16777216 + m1 * 65536 + m2 * 256 + m3) >>> 8 &&& 255 = m2 := by
    rw [Nat.shiftRight_eq_div_pow, and255_eq_mod]
    norm_num
    omega
  have e0 : (m0 * 16777216 + m1 * 65536 + m2 * 256 + m3) &&& 255 = m3 := by
    rw [and255_eq_mod]
    omega
  rw [e24, e16, e8, e0]

/-- Decoding's unmasking loop is a left inverse of the synthetic client
masking: starting at offset `off` into a buffer whose tail from `off` is the
masked payload, with the mask index aligned to the masking position, it
recovers the payload. -/
theorem wsUnmaskLoop_roundtrip (m0 m1 m2 m3 : Nat) :
    ∀ (p : List Nat) (buffer : List Nat) (off j : Nat),
      buffer.drop off = applyMask m0 m1 m2 m3 j p →
      wsUnmaskLoop buffer [m0, m1, m2, m3] off (j % 4) p.length = .ok p := by
  intro p
  induction p with
  | nil => intro buffer off j _; rfl
  | cons b bs ih =>
    intro buffer off j hdrop
    have hmb :
        applyMask m0 m1 m2 m3 j (b :: bs) =
          ((if j % 4 = 0 then m0 else if j % 4 = 1 then m1
            else if j % 4 = 2 then m2 else m3) ^^^ b)
            :: applyMask m0 m1 m2 m3 (j + 1) bs := rfl
    rw [hmb] at hdrop
    have hread : readUInt8 buffer off =
        .ok ((if j % 4 = 0 then m0 else if j % 4 = 1 then m1
          else if j % 4 = 2 then m2 else m3) ^^^ b) := by
      have hoff : buffer[off]? =
          some ((if j % 4 = 0 then m0 else if j % 4 = 1 then m1
            else if j % 4 = 2 then m2 else m3) ^^^ b) := by
        have h0 : (buffer.drop off)[0]? = buffer[off]? := by
          rw [List.getElem?_drop, Nat.add_zero]
        rw [← h0, hdrop]
        simp
      simp only [readUInt8, hoff]
    have hdrop' : buffer.drop (off + 1) = applyMask m0 m1 m2 m3 (j + 1) bs := by
      have : buffer.drop (off + 1) = (buffer.drop off).drop 1 := by
        rw [List.drop_drop]
      rw [this, hdrop]
      rfl
    have hstep : (if j % 4 < 3 then j % 4 + 1 else 0) = (j + 1) % 4 := by
      by_cases h : j % 4 < 3
      · rw [if_pos h]; omega
      · rw [if_neg h]; omega
    have hrec := ih buffer (off + 1) (j + 1) hdrop'
    have hlen : (b :: bs).length = bs.length + 1 := rfl
    rw [hlen, wsUnmaskLoop, hread, hstep, hrec]
    have hget : ([m0, m1, m2, m3].getD (j % 4) 0) =
        (if j % 4 = 0 then m0 else if j % 4 = 1 then m1
          else if j % 4 = 2 then m2 else m3) := by
      have h4 : j % 4 = 0 ∨ j % 4 = 1 ∨ j % 4 = 2 ∨ j % 4 = 3 := by omega
      rcases h4 with h | h | h | h <;> rw [h] <;> rfl
    rw [hget]
    have hxor : (if j % 4 = 0 then m0 else if j % 4 = 1 then m1
          else if j % 4 = 2 then m2 else m3) ^^^
        ((if j % 4 = 0 then m0 else if j % 4 = 1 then m1
          else if j % 4 = 2 then m2 else m3) ^^^ b) = b := by
      rw [← Nat.xor_assoc, Nat.xor_self, Nat.zero_xor]
    exact congrArg (fun t => Except.ok (t :: bs)) hxor

/-- Decoding a synthetically masked short frame (2-byte header) recovers the
payload. -/
theorem decode_small_frame (L : Nat) (payload : List Nat) (m0 m1 m2 m3 : Nat)
    (hL : L < 126) (hlen : payload.length = L)
    (hm0 : m0 < 256) (hm1 : m1 < 256) (hm2 : m2 < 256) (hm3 : m3 < 256) :
    decodeWsMessage (129 :: (L ||| 128) :: m0 :: m1 :: m2 :: m3 ::
      applyMask m0 m1 m2 m3 0 payload) = .ok (some payload) := by
  have hB : L ||| 128 = L + 128 := lor128_of_lt L (by omega)
  have hop : (129 &&& 15 ≠ 1) = False := by decide
  have hmask : (((L + 128) >>> 7) &&& 1 = 0) = False := by
    rw [Nat.shiftRight_eq_div_pow]
    have h1 : (L + 128) / 2 ^ 7 = 1 := by norm_num; omega
    rw [h1]
    decide
  have hbase : (L + 128) &&& 127 = L := by rw [and127_eq_mod]; omega
  have hb126 : (L = 126) = False := by simp; omega
  have hb127 : (L ≥ 127) = False := by simp; omega
  have hkey := readUInt32BE_two 129 (L + 128) m0 m1 m2 m3 (applyMask m0 m1 m2 m3 0 payload)
  have hmasks := wsMasks_bytes m0 m1 m2 m3 hm0 hm1 hm2 hm3
  have hloop : wsUnmaskLoop (129 :: (L + 128) :: m0 :: m1 :: m2 :: m3 ::
      applyMask m0 m1 m2 m3 0 payload) [m0, m1, m2, m3] 6 0 L = .ok payload := by
    have := wsUnmaskLoop_roundtrip m0 m1 m2 m3 payload
      (129 :: (L + 128) :: m0 :: m1 :: m2 :: m3 :: applyMask m0 m1 m2 m3 0 payload) 6 0 rfl
    rw [hlen] at this
    exact this
  rw [hB]
  simp only [decodeWsMessage, readUInt8_zero, readUInt8_one, hop, if_false, hmask,
    hbase, hb126, hb127, hkey, hmasks, hloop]

/-- Decoding a synthetically masked extended frame (4-byte header, 16-bit
length) recovers the payload. -/
theorem decode_big_frame (L : Nat) (payload : List Nat) (m0 m1 m2 m3 : Nat)
    (hlen : payload.length = L)
    (hm0 : m0 < 256) (hm1 : m1 < 256) (hm2 : m2 < 256) (hm3 : m3 < 256) :
    decodeWsMessage (129 :: 254 :: L / 256 :: L % 256 :: m0 :: m1 :: m2 :: m3 ::
      applyMask m0 m1 m2 m3 0 payload) = .ok (some payload) := by
  have hop : (129 &&& 15 ≠ 1) = False := by decide
  have hmask : ((254 >>> 7) &&& 1 = 0) = False := by decide
  have hbase : 254 &&& 127 = 126 := by decide
  have hlenval := readUInt16BE_two 129 254 (L / 256) (L % 256)
    (m0 :: m1 :: m2 :: m3 :: applyMask m0 m1 m2 m3 0 payload)
  have heq : L / 256 * 256 + L % 256 = L := by omega
  rw [heq] at hlenval
  have hkey := readUInt32BE_four 129 254 (L / 256) (L % 256) m0 m1 m2 m3
    (applyMask m0 m1 m2 m3 0 payload)
  have hmasks := wsMasks_bytes m0 m1 m2 m3 hm0 hm1 hm2 hm3
  have hloop : wsUnmaskLoop (129 :: 254 :: L / 256 :: L % 256 :: m0 :: m1 :: m2 :: m3 ::
      applyMask m0 m1 m2 m3 0 payload) [m0, m1, m2, m3] 8 0 L = .ok payload := by
    have := wsUnmaskLoop_roundtrip m0 m1 m2 m3 payload
      (129 :: 254 :: L / 256 :: L % 256 :: m0 :: m1 :: m2 :: m3 ::
        applyMask m0 m1 m2 m3 0 payload) 8 0 rfl
    rw [hlen] at this
    exact this
  simp only [decodeWsMessage, readUInt8_zero, readUInt8_one, hop, if_false, hmask,
    hbase, hlenval, hkey, hmasks, hloop]
  simp

/-- C2: for every text payload of byte length up to 65535, masking the encoded
frame as a client would (mask bit set, arbitrary 4-byte key inserted, payload
XOR-masked) and decoding it yields the original payload exactly; and for
payloads of length at least 126 the encoded frame carries the big-endian
16-bit byte length in bytes 2-3. -/
theorem c2_ws_roundtrip (payload : List Nat) (m0 m1 m2 m3 : Nat)
    (hlen : payload.length < 65536)
    (hm0 : m0 < 256) (hm1 : m1 < 256) (hm2 : m2 < 256) (hm3 : m3 < 256) :
    ∃ frame, encodeWsMessage payload = .ok frame ∧
      decodeWsMessage (maskClientFrame m0 m1 m2 m3 frame) = .ok (some payload) ∧
      (126 ≤ payload.length →
        ∃ hi lo, frame[2]? = some hi ∧ frame[3]? = some lo ∧
          hi * 256 + lo = payload.length ∧ hi < 256 ∧ lo < 256) := by
  by_cases hsmall : payload.length < 126
  · refine ⟨129 :: payload.length :: payload, ?_, ?_, ?_⟩
    · rw [encodeWsMessage]
      simp only [hsmall, if_true]
    · have hmcf : maskClientFrame m0 m1 m2 m3 (129 :: payload.length :: payload) =
          129 :: (payload.length ||| 128) :: m0 :: m1 :: m2 :: m3 ::
            applyMask m0 m1 m2 m3 0 payload := by
        have hc : ¬ payload.length &&& 127 = 126 := by
          rw [and127_eq_mod]
          omega
        simp only [maskClientFrame]
        rw [if_neg hc]
      rw [hmcf]
      exact decode_small_frame payload.length payload m0 m1 m2 m3 hsmall rfl hm0 hm1 hm2 hm3
    · intro h126
      omega
  · push_neg at hsmall
    refine ⟨129 :: 126 :: payload.length / 256 :: payload.length % 256 :: payload,
      ?_, ?_, ?_⟩
    · rw [encodeWsMessage]
      simp only [hlen, if_true]
      have hc : (payload.length < 126) = False := by simp; omega
      simp only [hc, if_false]
    · have hmcf : maskClientFrame m0 m1 m2 m3
          (129 :: 126 :: payload.length / 256 :: payload.length % 256 :: payload) =
          129 :: 254 :: payload.length / 256 :: payload.length % 256 ::
            m0 :: m1 :: m2 :: m3 :: applyMask m0 m1 m2 m3 0 payload := by
        have hc : (126 : Nat) &&& 127 = 126 := by decide
        simp only [maskClientFrame]
        rw [if_pos hc]
        have hor : (126 : Nat) ||| 128 = 254 := by decide
        rw [hor]
      rw [hmcf]
      exact decode_big_frame payload.length payload m0 m1 m2 m3 rfl hm0 hm1 hm2 hm3
    · intro _
      refine ⟨payload.length / 256, payload.length % 256, by simp, by simp, by omega,
        by omega, by omega⟩

/-- C2 witness: a concrete 2-byte payload with a concrete mask, through the
round-trip theorem. -/
theorem c2_ws_roundtrip_witness :
    ∃ frame, encodeWsMessage [104, 105] = .ok frame ∧
      decodeWsMessage (maskClientFrame 1 2 3 254 frame) = .ok (some [104, 105]) ∧
      (126 ≤ ([104, 105] : List Nat).length →
        ∃ hi lo, frame[2]? = some hi ∧ frame[3]? = some lo ∧
          hi * 256 + lo = ([104, 105] : List Nat).length ∧ hi < 256 ∧ lo < 256) :=
  c2_ws_roundtrip [104, 105] 1 2 3 254 (by decide) (by decide) (by decide) (by decide)
    (by decide)

/-- C6: a payload of byte length below 126 encodes to exactly
`[0x81, length] ++ payload`; a length between 126 and 65535 encodes to exactly
`[0x81, 126, hi, lo] ++ payload` with `hi, lo` the big-endian 16-bit length;
lengths of 65536 and above are not supported (the 16-bit length write throws a
RangeError). -/
theorem c6_encode_frame (data : List Nat) :
    (data.length < 126 → encodeWsMessage data = .ok (129 :: data.length :: data)) ∧
    (126 ≤ data.length → data.length < 65536 →
      ∃ hi lo, encodeWsMessage data = .ok (129 :: 126 :: hi :: lo :: data) ∧
        hi * 256 + lo = data.length ∧ hi < 256 ∧ lo < 256) ∧
    (65536 ≤ data.length → encodeWsMessage data = .error .rangeError) := by
  refine ⟨?_, ?_, ?_⟩
  · intro h
    rw [encodeWsMessage]
    simp only [h, if_true]
  · intro h1 h2
    refine ⟨data.length / 256, data.length % 256, ?_, by omega, by omega, by omega⟩
    rw [encodeWsMessage]
    have hc : (data.length < 126) = False := by simp; omega
    simp only [hc, if_false, h2, if_true]
  · intro h
    rw [encodeWsMessage]
    have hc : (data.length < 126) = False := by simp; omega
    have hc' : (data.length < 65536) = False := by simp; omega
    simp only [hc, hc', if_false]

/-- C6 witness: the three length regimes at concrete payloads (2 bytes, 1000
bytes, 65536 bytes), through the frame-shape theorem. -/
theorem c6_encode_frame_witness :
    encodeWsMessage [104, 105] = .ok (129 :: ([104, 105] : List Nat).length :: [104, 105]) ∧
    (∃ hi lo, encodeWsMessage (List.replicate 1000 97) =
        .ok (129 :: 126 :: hi :: lo :: List.replicate 1000 97) ∧
      hi * 256 + lo = (List.replicate 1000 97).length ∧ hi < 256 ∧ lo < 256) ∧
    encodeWsMessage (List.replicate 65536 97) = .error .rangeError := by
  refine ⟨(c6_encode_frame [104, 105]).1 (by decide), ?_, ?_⟩
  · exact (c6_encode_frame (List.replicate 1000 97)).2.1
      (by norm_num [List.length_replicate]) (by norm_num [List.length_replicate])
  · exact (c6_encode_frame (List.replicate 65536 97)).2.2
      (by norm_num [List.length_replicate])

/-- C7: every frame of two or more bytes whose opcode (low 4 bits of byte 0)
is not 1, or whose mask bit (bit 7 of byte 1) is unset, or whose 7-bit base
length field is 127, is silently ignored: #decodeWsMessage returns before
writing `socket.message` and raises no error. -/
theorem c7_decode_ignores (b0 b1 : Nat) (rest : List Nat)
    (h : b0 &&& 0xf ≠ 0x1 ∨ (b1 >>> 7) &&& 0x1 = 0 ∨ b1 &&& 0x7f = 127) :
    decodeWsMessage (b0 :: b1 :: rest) = .ok none := by
  by_cases h0 : b0 &&& 0xf ≠ 0x1
  · simp only [decodeWsMessage, readUInt8_zero, readUInt8_one]
    rw [if_pos h0]
  · push_neg at h0
    by_cases h1 : (b1 >>> 7) &&& 0x1 = 0
    · simp only [decodeWsMessage, readUInt8_zero, readUInt8_one]
      rw [if_neg (fun hc => hc h0), if_pos h1]
    · have h2 : b1 &&& 0x7f = 127 := by
        rcases h with hx | hx | hx
        · exact absurd h0 hx
        · exact absurd hx h1
        · exact hx
      simp only [decodeWsMessage, readUInt8_zero, readUInt8_one]
      rw [if_neg (fun hc => hc h0), if_neg h1, h2]
      have hne : (127 = 126) = False := by decide
      have hge : ((127 : Nat) ≥ 127) = True := by decide
      simp only [hne, if_false, hge, if_true]

/-- C7 witness: a binary-opcode frame (0x82) with the mask bit set is ignored,
through the malformed-frame theorem. -/
theorem c7_decode_ignores_witness : decodeWsMessage [130, 128] = .ok none :=
  c7_decode_ignores 130 128 [] (Or.inl (by decide))

/-!
## Middleware pipeline (src/server.js, #midCall lines 284-310; listener tail
lines 880-886)

The request/response pair is a state carrying the response's `finished` flag
and an observable value; a middleware function is a state transformer. The
host is single-threaded, so an async group's functions — started together and
awaited with `Promise.all` — are applied in list order with no finished-check
between them, while a sync group checks `res.finished` after each call and
the group loop checks it before each group.
-/

/-- The request/response state a middleware function can read and write:
`finished` is `res.finished`, `log` stands for every other observable effect
(headers, body, request fields). -/
structure PipeState where
  finished : Bool
  log : List Nat
deriving DecidableEq, Repr

/-- A middleware function. -/
abbrev Middleware : Type := PipeState → PipeState

/-- One middleware group: the `sync` flag and the functions, as stored by
#midPush. -/
structure MidGroup where
  sync : Bool
  functions : List Middleware

/-- The sync-group inner loop: call each function, stop after the one that
finishes the response (`if (res.finished) break`). -/
def midRunSync : PipeState → List Middleware → PipeState
  | s, [] => s
  | s, f :: rest =>
    let s' := f s
    if s'.finished then s' else midRunSync s' rest

/-- The async-group fan-out/join: all functions are started together and all
are awaited; with single-threaded non-suspending middleware this is
application in list order, with no finished-check in between. -/
def midRunAsync (s : PipeState) (fs : List Middleware) : PipeState :=
  fs.foldl (fun s f => f s) s

/-- #midCall: iterate the groups in registration order, stopping before any
group once the response is finished. -/
def midCall : PipeState → List MidGroup → PipeState
  | s, [] => s
  | s, g :: rest =>
    if s.finished then s
    else midCall (if g.sync then midRunSync s g.functions else midRunAsync s g.functions) rest

/-- The listener's API tail (lines 880-886): run the developer middleware,
then invoke the route handler only if the response is not finished. -/
def runApiHandler (s : PipeState) (groups : List MidGroup) (handler : Middleware) :
    PipeState :=
  let s' := midCall s groups
  if s'.finished then s' else handler s'

/-- C3: in a sync group `[a, b, c]`, if `b` finalizes the response then the
pipeline's result is exactly the state after `b` — `c` and every later group
never touch it — and whenever the pipeline leaves the response finalized the
route handler is not invoked (the result of the listener tail is the
pipeline's result, untouched by the handler). -/
theorem c3_middleware_stops :
    (∀ (a b c : Middleware) (later : List MidGroup) (s : PipeState),
      s.finished = false → (a s).finished = false → (b (a s)).finished = true →
      midCall s (⟨true, [a, b, c]⟩ :: later) = b (a s)) ∧
    (∀ (groups : List MidGroup) (handler : Middleware) (s : PipeState),
      (midCall s groups).finished = true →
      runApiHandler s groups handler = midCall s groups) := by
  have hstop : ∀ (later : List MidGroup) (s : PipeState), s.finished = true →
      midCall s later = s := by
    intro later
    induction later with
    | nil => intro s _; rfl
    | cons g rest ih => intro s hs; rw [midCall, if_pos hs]
  constructor
  · intro a b c later s hs ha hb
    rw [midCall, if_neg (by rw [hs]; exact Bool.false_ne_true)]
    have hsync : midRunSync s [a, b, c] = b (a s) := by
      rw [midRunSync]
      simp only [ha]
      rw [if_neg Bool.false_ne_true]
      rw [midRunSync]
      simp only [hb]
      simp
    simp only [if_true]
    rw [hsync]
    exact hstop later (b (a s)) hb
  · intro groups handler s hfin
    rw [runApiHandler]
    simp only [hfin, if_true]

/-- Middleware that appends 1 to the log. -/
def midLogOne : Middleware := fun s => ⟨s.finished, s.log ++ [1]⟩

/-- Middleware that finalizes the response and appends 2. -/
def midFinishTwo : Middleware := fun s => ⟨true, s.log ++ [2]⟩

/-- Middleware that appends 3 to the log. -/
def midLogThree : Middleware := fun s => ⟨s.finished, s.log ++ [3]⟩

/-- Middleware that appends 4 to the log. -/
def midLogFour : Middleware := fun s => ⟨s.finished, s.log ++ [4]⟩

/-- A handler that appends 9 to the log. -/
def midLogNine : Middleware := fun s => ⟨s.finished, s.log ++ [9]⟩

/-- C3 witness: a concrete three-function sync group where the second function
finalizes, followed by a later group, plus the listener tail on the same
pipeline, through the ordering theorem. -/
theorem c3_middleware_stops_witness :
    midCall ⟨false, []⟩
        (⟨true, [midLogOne, midFinishTwo, midLogThree]⟩ :: [⟨false, [midLogFour]⟩]) =
      midFinishTwo (midLogOne ⟨false, []⟩) ∧
    runApiHandler ⟨false, []⟩
        (⟨true, [midLogOne, midFinishTwo, midLogThree]⟩ :: [⟨false, [midLogFour]⟩])
        midLogNine =
      midCall ⟨false, []⟩
        (⟨true, [midLogOne, midFinishTwo, midLogThree]⟩ :: [⟨false, [midLogFour]⟩]) :=
  ⟨c3_middleware_stops.1 midLogOne midFinishTwo midLogThree [⟨false, [midLogFour]⟩]
      ⟨false, []⟩ rfl rfl rfl,
   c3_middleware_stops.2
      (⟨true, [midLogOne, midFinishTwo, midLogThree]⟩ :: [⟨false, [midLogFour]⟩])
      midLogNine ⟨false, []⟩ rfl⟩

/-!
## File-serving setup (src/server.js, files lines 317-351) and the listener's
file-vs-API branch (lines 840-845)

POSIX paths are lists of segments; an absolute path is its segment list from
the root. `path.join(cwd, dir)` concatenates and normalizes (`.`, `..`, empty
parts); `path.relative(cwd, dir)` resolves both sides, strips the common
leading segments and prefixes one `..` per remaining `cwd` segment. The
source's `/\.\./` test fires exactly when some segment of the relative path
contains two consecutive dots. Trailing-slash spellings of the same directory
are outside this segment model.
-/

/-- Two consecutive dot characters somewhere in the list. -/
def hasTwoDots : List Char → Bool
  | '.' :: '.' :: _ => true
  | _ :: rest => hasTwoDots rest
  | [] => false

/-- The regex `/\.\./` on one path segment. -/
def containsDotDot (s : String) : Bool := hasTwoDots s.toList

/-- One step of path normalization: empty and `.` segments vanish, `..` pops
the last kept segment (staying at the root when there is none). -/
def normStep (acc : List String) (seg : String) : List String :=
  if seg = "" ∨ seg = "." then acc
  else if seg = ".." then acc.dropLast
  else acc ++ [seg]

/-- Normalization of an absolute path's segments, as `path.join` /
`path.resolve` perform it. -/
def normSegs (segs : List String) : List String := segs.foldl normStep []

/-- Length of the common leading run of two segment lists. -/
def commonLead : List String → List String → Nat
  | x :: xs, y :: ys => if x = y then commonLead xs ys + 1 else 0
  | _, _ => 0

/-- `path.relative(fromP, toP)` on resolved segment lists: one `..` per
`fromP` segment beyond the common lead, then the rest of `toP`. -/
def relSegs (fromP toP : List String) : List String :=
  List.replicate (fromP.length - commonLead fromP toP) ".." ++ toP.drop (commonLead fromP toP)

/-- `leadsList p l`: `p` is a leading run of `l` (segment-wise). -/
def leadsList : List String → List String → Bool
  | [], _ => true
  | x :: xs, y :: ys => x = y && leadsList xs ys
  | _ :: _, [] => false

/-- `d` names a strict ancestor directory of `c`. -/
def isAncestorOf (d c : List String) : Bool := leadsList d c && d ≠ c

/-- The `dir` option of `files({...})`: either not a string, or a path given
as absolute/relative with its segments. -/
inductive FilesDirArg where
  | notString
  | dirPath (abs : Bool) (segs : List String)

/-- Outcome of a `files` call: whether it threw, and the value of the server's
`#dir` field afterwards (`none` both for "never set" and for "set to null"). -/
structure FilesResult where
  thrown : Bool
  dir : Option (List String)
deriving DecidableEq, Repr

/-- The `files({dir})` setup (lines 327-350), for a process whose working
directory is `cwd` and whose `#dir` field currently holds `dirBefore`: a
non-string `dir` sets `#dir = null` and returns; a string is made absolute
against `cwd`; serving `cwd` itself throws; a relative path (after resolving)
containing `..` throws; otherwise `#dir` is set. On a throw the field keeps
its previous value. -/
def filesRun (cwd : List String) (arg : FilesDirArg) (dirBefore : Option (List String)) :
    FilesResult :=
  match arg with
  | .notString => ⟨false, none⟩
  | .dirPath abs segs =>
    let d := if abs then segs else normSegs (cwd ++ segs)
    if d = cwd then ⟨true, dirBefore⟩
    else if (relSegs cwd (normSegs d)).any containsDotDot then ⟨true, dirBefore⟩
    else ⟨false, some d⟩

/-- The listener's decision to enter the file-serving branch (lines 840-845):
never without a configured directory; with one, unless the API-prefix regex is
configured and matches. `apiTest` is the outcome of `#prefix.test(req.url)`,
`none` when no prefix regex is configured. -/
def listenerFileBranch (dir : Option (List String)) (apiTest : Option Bool) : Bool :=
  match dir with
  | none => false
  | some _ =>
    match apiTest with
    | none => true
    | some true => false
    | some false => true


theorem commonLead_le (xs : List String) : ∀ ys, commonLead xs ys ≤ xs.length := by
  induction xs with
  | nil => intro ys; cases ys <;> simp [commonLead]
  | cons x xs ih =>
    intro ys
    cases ys with
    | nil => simp [commonLead]
    | cons y ys =>
      rw [commonLead]
      by_cases h : x = y
      · rw [if_pos h]
        have := ih ys
        simp
        omega
      · rw [if_neg h]
        simp

theorem commonLead_of_leads (xs : List String) :
    ∀ ys, leadsList xs ys = true → commonLead xs ys = xs.length := by
  induction xs with
  | nil => intro ys _; cases ys <;> rfl
  | cons x xs ih =>
    intro ys h
    cases ys with
    | nil => rw [leadsList] at h; cases h
    | cons y ys =>
      rw [leadsList, Bool.and_eq_true, decide_eq_true_eq] at h
      rw [commonLead, if_pos h.1, ih ys h.2]
      rfl

theorem leads_of_commonLead (xs : List String) :
    ∀ ys, commonLead xs ys = xs.length → leadsList xs ys = true := by
  induction xs with
  | nil => intro ys _; rfl
  | cons x xs ih =>
    intro ys h
    cases ys with
    | nil =>
      have h0 : commonLead (x :: xs) [] = 0 := rfl
      rw [h0] at h
      simp at h
    | cons y ys =>
      rw [commonLead] at h
      by_cases hx : x = y
      · rw [if_pos hx] at h
        rw [leadsList, Bool.and_eq_true, decide_eq_true_eq]
        exact ⟨hx, ih ys (by simpa using h)⟩
      · rw [if_neg hx] at h
        simp at h

theorem leadsList_antisymm (xs : List String) :
    ∀ ys, leadsList xs ys = true → leadsList ys xs = true → xs = ys := by
  induction xs with
  | nil =>
    intro ys _ h2
    cases ys with
    | nil => rfl
    | cons y ys => rw [leadsList] at h2; cases h2
  | cons x xs ih =>
    intro ys h1 h2
    cases ys with
    | nil => rw [leadsList] at h1; cases h1
    | cons y ys =>
      rw [leadsList, Bool.and_eq_true, decide_eq_true_eq] at h1 h2
      rw [h1.1, ih ys h1.2 h2.2]

/-- C8 (counterexample to the claim as stated, in both directions): with
working directory `/home/me`, (1) the directory `/etc` is neither the working
directory nor an ancestor of it, yet `files({dir: "/etc"})` throws —
`path.relative` yields `../../etc`, which the `/\.\./` test rejects — so "any
other string dir returns without error" fails; and (2) the absolute directory
`/home/me/x/..` resolves to the working directory itself, yet `files` does not
fail: the equality check compares the unresolved string against the working
directory, and `path.relative` resolves the argument to the empty path, so no
test fires and the working directory is configured for serving. -/
theorem c8_counterexample :
    (["etc"] : List String) ≠ ["home", "me"] ∧
    isAncestorOf ["etc"] ["home", "me"] = false ∧
    filesRun ["home", "me"] (.dirPath true ["etc"]) none = ⟨true, none⟩ ∧
    normSegs ["home", "me", "x", ".."] = ["home", "me"] ∧
    filesRun ["home", "me"] (.dirPath true ["home", "me", "x", ".."]) none =
      ⟨false, some ["home", "me", "x", ".."]⟩ := by
  refine ⟨by decide, by decide, by decide, by decide, by decide⟩

/-- C8 (amended): let `d` be the `dir` argument after the code's join step
(normalized against the working directory when relative, kept verbatim when
absolute) and let `n` be the directory `d` resolves to. `files({dir})` fails
by raising an error exactly when `d` is string-identical to the working
directory, or `n` lies outside the working directory's subtree (which covers
every strict ancestor of the working directory, and also every sibling or
unrelated directory), or some segment of `n` below the working directory
contains a `..` substring; on a failure the file-serving configuration keeps
its previous value, and otherwise the call returns normally and configures
`d`. In particular the working directory under its own spelling, and every
directory resolving to a strict ancestor of it, do fail as the claim states —
but directories outside the subtree fail as well, and an absolute spelling
of the working directory that detours through `x/..` is not caught and is
configured (see the counterexample). -/
theorem c8_files_amended (cwd segs : List String) (abs : Bool)
    (before : Option (List String)) (d n : List String)
    (hd : d = if abs then segs else normSegs (cwd ++ segs))
    (hn : n = normSegs d) :
    (filesRun cwd (.dirPath abs segs) before =
      if d = cwd ∨ leadsList cwd n = false ∨ (n.drop cwd.length).any containsDotDot
      then ⟨true, before⟩ else ⟨false, some d⟩) ∧
    (d = cwd → filesRun cwd (.dirPath abs segs) before = ⟨true, before⟩) ∧
    (isAncestorOf n cwd = true → filesRun cwd (.dirPath abs segs) before = ⟨true, before⟩) := by
  have hmain : filesRun cwd (.dirPath abs segs) before =
      if d = cwd ∨ leadsList cwd n = false ∨ (n.drop cwd.length).any containsDotDot
      then ⟨true, before⟩ else ⟨false, some d⟩ := by
    rw [filesRun]
    simp only [← hd, ← hn]
    by_cases hcwd : d = cwd
    · rw [if_pos hcwd, if_pos (Or.inl hcwd)]
    · rw [if_neg hcwd]
      by_cases hlead : leadsList cwd n = true
      · have hc : commonLead cwd n = cwd.length := commonLead_of_leads cwd n hlead
        have hrel : relSegs cwd n = n.drop cwd.length := by
          rw [relSegs, hc]
          simp
        rw [hrel]
        by_cases hany : (n.drop cwd.length).any containsDotDot = true
        · rw [if_pos hany, if_pos (Or.inr (Or.inr hany))]
        · rw [if_neg hany, if_neg ?_]
          push_neg at hany
          rintro (hx | hx | hx)
          · exact hcwd hx
          · rw [hlead] at hx; cases hx
          · exact hany hx
      · have hlead' : leadsList cwd n = false := by
          cases hx : leadsList cwd n with
          | true => exact absurd hx hlead
          | false => rfl
        have hc : commonLead cwd n < cwd.length := by
          have := commonLead_le cwd n
          rcases Nat.lt_or_ge (commonLead cwd n) cwd.length with h | h
          · exact h
          · have : commonLead cwd n = cwd.length := by omega
            exact absurd (leads_of_commonLead cwd n this) hlead
        have hany : (relSegs cwd n).any containsDotDot = true := by
          rw [relSegs, List.any_append]
          have hrep : (List.replicate (cwd.length - commonLead cwd n) "..").any
              containsDotDot = true := by
            have hpos : 0 < cwd.length - commonLead cwd n := by omega
            cases he : cwd.length - commonLead cwd n with
            | zero => omega
            | succ k =>
              rw [List.replicate_succ, List.any_cons]
              have : containsDotDot ".." = true := by decide
              rw [this]
              rfl
          rw [hrep]
          rfl
        rw [if_pos hany, if_pos (Or.inr (Or.inl hlead'))]
  refine ⟨hmain, ?_, ?_⟩
  · intro hcwd
    rw [hmain, if_pos (Or.inl hcwd)]
  · intro hanc
    rw [isAncestorOf, Bool.and_eq_true, decide_eq_true_eq] at hanc
    have hlead' : leadsList cwd n = false := by
      cases hx : leadsList cwd n with
      | false => rfl
      | true => exact absurd (leadsList_antisymm n cwd hanc.1 hx).symm (Ne.symm hanc.2)
    rw [hmain, if_pos (Or.inr (Or.inl hlead'))]

/-- C8 witness: configuring a strict subdirectory `public` of the working
directory succeeds and sets the directory, through the amended theorem. -/
theorem c8_files_amended_witness :
    filesRun ["home", "me"] (.dirPath false ["public"]) none =
      ⟨false, some ["home", "me", "public"]⟩ := by
  have h := (c8_files_amended ["home", "me"] ["public"] false none
    ["home", "me", "public"] ["home", "me", "public"] (by decide) (by decide)).1
  rw [h]
  decide

/-- C10: calling `files` with a non-string `dir` (for example `null`) returns
normally without raising, leaves file serving disabled (`#dir = null`), and
the listener then never enters the file-serving branch — every request is
handled as an API request — unlike the same-directory and ancestor-directory
misconfigurations, which throw. -/
theorem c10_files_nonstring (cwd : List String) (before : Option (List String)) :
    filesRun cwd .notString before = ⟨false, none⟩ ∧
    (∀ apiTest : Option Bool, listenerFileBranch none apiTest = false) :=
  ⟨rfl, fun _ => rfl⟩

/-!
## WebSocket event wiring (src/server.js, #upgradeToWs lines 753-787)

The three transient connection fields and the four wired events. Each
`socket.on(...)` handler assigns all three fields before invoking the
configured callback; for a data event the decoder runs between the reset and
the callback and may either leave `socket.message` null (ignored frame),
assign the decoded payload, or throw — in which case the callback is never
reached.
-/

/-- The transient per-event fields of a WebSocket connection. -/
structure WsClient where
  error : Option Nat
  hadError : Option Bool
  message : Option (List Nat)
deriving DecidableEq, Repr

/-- A socket event as delivered by the host runtime. -/
inductive WsEvent where
  | closeEv (hadError : Bool)
  | errorEv (e : Nat)
  | dataEv (buffer : List Nat)
  | openEv

/-- The state a configured callback observes for each event, starting from the
socket state `s` left by earlier events: `none` when the callback is not
invoked (the decoder threw out of the data handler). Every branch overwrites
all three fields before the callback runs, exactly as lines 753-787 do. -/
def wsDispatch (_s : WsClient) (ev : WsEvent) : Option WsClient :=
  match ev with
  | .closeEv he => some { error := none, hadError := some he, message := none }
  | .errorEv e => some { error := some e, hadError := none, message := none }
  | .dataEv buffer =>
    match decodeWsMessage buffer with
    | .error _ => none
    | .ok none => some { error := none, hadError := none, message := none }
    | .ok (some msg) => some { error := none, hadError := none, message := some msg }
  | .openEv => some { error := none, hadError := none, message := none }

/-- C9: whatever the previous state of the three transient fields, a callback
never observes stale values: on a close event only `hadError` is non-null (set
to that event's flag), on an error event only `error` is non-null, on a
message event `error` and `hadError` are null and only `message` may be
non-null, and on open all three are null. -/
theorem c9_ws_event_reset (s : WsClient) (ev : WsEvent) (obs : WsClient)
    (h : wsDispatch s ev = some obs) :
    match ev with
    | .closeEv he => obs.error = none ∧ obs.message = none ∧ obs.hadError = some he
    | .errorEv e => obs.hadError = none ∧ obs.message = none ∧ obs.error = some e
    | .dataEv _ => obs.error = none ∧ obs.hadError = none
    | .openEv => obs.error = none ∧ obs.hadError = none ∧ obs.message = none := by
  cases ev with
  | closeEv he =>
    rw [wsDispatch] at h
    injection h with h
    subst h
    exact ⟨rfl, rfl, rfl⟩
  | errorEv e =>
    rw [wsDispatch] at h
    injection h with h
    subst h
    exact ⟨rfl, rfl, rfl⟩
  | dataEv buffer =>
    rw [wsDispatch] at h
    cases hdec : decodeWsMessage buffer with
    | error e => rw [hdec] at h; cases h
    | ok r =>
      rw [hdec] at h
      cases r with
      | none =>
        injection h with h
        subst h
        exact ⟨rfl, rfl⟩
      | some msg =>
        injection h with h
        subst h
        exact ⟨rfl, rfl⟩
  | openEv =>
    rw [wsDispatch] at h
    injection h with h
    subst h
    exact ⟨rfl, rfl, rfl⟩

/-- C9 witness: a close event dispatched on a socket with stale values in all
three fields, through the reset theorem. -/
theorem c9_ws_event_reset_witness :
    (⟨none, some false, none⟩ : WsClient).error = none ∧
    (⟨none, some false, none⟩ : WsClient).message = none ∧
    (⟨none, some false, none⟩ : WsClient).hadError = some false :=
  c9_ws_event_reset ⟨some 7, some true, some [1, 2]⟩ (.closeEv false)
    ⟨none, some false, none⟩ rfl

/-!
## The body-reading middleware's data handler (src/server.js,
midApiReqBodyOther lines 144-168)

The handler installed by `req.on('data', buffer => { if (maxBodySize !==
undefined && bytes + buffer.length > maxBodySize) ... })` reads the
identifier `maxBodySize`. The scopes it closes over declare, in order: the
module level (`fs`, `crypto`, `path`, `parse`, `WS_GUID`, the three
CUSTOM_OPTIONS sets, the exported class), the method's parameters (`req`,
`res`) and locals (`length`, `bytes`), and the callback's own parameter
(`buffer`). Unlike midApiReqBodyJson, which declares
`const maxBodySize = req.socket.server.maxBodySize` on line 120,
midApiReqBodyOther declares no such constant, so under `'use strict'` the
first evaluation step of the guard raises a ReferenceError that propagates
out of the handler.
-/

/-- Every identifier in scope inside the data callback of midApiReqBodyOther:
the CommonJS wrapper parameters, the module-level bindings, the class
expression's own name, the method's parameters and locals, and the callback's
parameter. -/
def bodyOtherScope : List String :=
  ["require", "module", "exports", "__filename", "__dirname",
   "fs", "crypto", "path", "parse", "WS_GUID",
   "CUSTOM_OPTIONS_OTHER", "CUSTOM_OPTIONS_FILES", "CUSTOM_OPTIONS_LIMITS",
   "Server", "req", "res", "length", "bytes", "buffer"]

/-- A strict-mode identifier read: a ReferenceError unless the name is
declared in some enclosing scope. -/
def jsVarRead (scope : List String) (name : String) : Except JsError Unit :=
  if scope.contains name then .ok () else .error .referenceError

/-- The data handler of midApiReqBodyOther: its guard begins by reading
`maxBodySize`; if that read succeeded the handler would compare sizes and copy
the chunk, but the read is its first step. -/
def midApiReqBodyOtherOnData (_chunk : List Nat) : Except JsError Unit :=
  match jsVarRead bodyOtherScope "maxBodySize" with
  | .error e => .error e
  | .ok () => .ok ()

/-- C4 (the code crashes where the claim says it cannot): every data chunk
delivered to midApiReqBodyOther's handler raises a ReferenceError out of the
handler — `maxBodySize` is not declared in any scope the callback closes
over — and a byte chunk shorter than a complete frame header makes
#decodeWsMessage throw a RangeError (here a one-byte chunk `[0x81]`, whose
second header byte does not exist). -/
theorem c4_body_other_crash :
    (∀ chunk : List Nat, midApiReqBodyOtherOnData chunk = .error .referenceError) ∧
    decodeWsMessage [129] = .error .rangeError := by
  constructor
  · intro _chunk
    rfl
  · decide
